import Mathlib

/-!
The `backup` and `list` commands of ollama-backup.

A shallow embedding of `cmd/backup.go` and `cmd/list.go`.

* Go strings are modelled by `String`; the standard-library calls the source
  makes (`strings.Split`, `strings.ReplaceAll`, `strings.Join`,
  `filepath.Join`) are modelled under their Go names.
* The file system is a function from path strings to nodes; `os.Create`
  updates it, every other call of the two commands only reads it.
* A run of a command yields an outcome (normal return, `log.Fatal`, run-time
  panic), the file system it leaves and the trace of the I/O calls it made, in
  order.  `log.Fatal` ends the process through `os.Exit(1)`, which does not run
  deferred calls; a panic and a normal return do run them.
* The tar stream is kept at the level of records (entry header, entry data,
  trailer); the 512-byte block encoding of `archive/tar` is not modelled, and
  neither are the informational `log.Printf` lines.  Writes to standard output
  are taken to succeed.
-/

set_option autoImplicit false

namespace OllamaBackup

/-! ## Standard-library string functions -/

namespace strings

/-- Scanner of `strings.ReplaceAll(s, old, new)` for a non-empty `old`: the
input is read left to right, every non-overlapping occurrence of `old` is
replaced by `new`.  `skip` counts the characters of a matched occurrence that
are still to be dropped. -/
def replaceScan (old new : List Char) : List Char → Nat → List Char
  | [], _ => []
  | _ :: cs, skip + 1 => replaceScan old new cs skip
  | c :: cs, 0 =>
    if old.isPrefixOf (c :: cs) then new ++ replaceScan old new cs (old.length - 1)
    else c :: replaceScan old new cs 0

/-- Go `strings.ReplaceAll(s, old, new)`, for non-empty `old`. -/
def ReplaceAll (s old new : String) : String :=
  ⟨replaceScan old.data new.data s.data 0⟩

/-- Scanner of `strings.Split(s, sep)` for a non-empty `sep`: the pieces of the
input between the non-overlapping occurrences of `sep`, in order.  `skip` is
as in `replaceScan`. -/
def splitScan (sep : List Char) : List Char → Nat → List (List Char)
  | [], _ => [[]]
  | _ :: cs, skip + 1 => splitScan sep cs skip
  | c :: cs, 0 =>
    if sep.isPrefixOf (c :: cs) then [] :: splitScan sep cs (sep.length - 1)
    else
      match splitScan sep cs 0 with
      | [] => [[c]]
      | p :: ps => (c :: p) :: ps

/-- Go `strings.Split(s, sep)`, for non-empty `sep`. -/
def Split (s sep : String) : List String :=
  (splitScan sep.data s.data 0).map String.mk

/-- Go `strings.Join(elems, sep)`. -/
def Join : List String → String → String
  | [], _ => ""
  | [a], _ => a
  | a :: b :: rest, sep => a ++ sep ++ Join (b :: rest) sep

end strings

/-! ## `path/filepath` on a Unix host -/

namespace filepath

/-- One step of `filepath.Clean` on the stack of kept path elements (top of the
stack first): a `.` element is dropped, a `..` element removes the element
before it when that one is not itself `..`, is dropped at the root of a rooted
path, and is kept otherwise. -/
def cleanStep (rooted : Bool) (stack : List String) (c : String) : List String :=
  if c = "." then stack
  else if c = ".." then
    match stack with
    | [] => if rooted then [] else [".."]
    | t :: rest => if t = ".." then ".." :: t :: rest else rest
  else c :: stack

/-- Go `filepath.Clean`: runs of separators collapse, `.` elements and inner
`..` elements are eliminated, the result is `.` for an empty relative path. -/
def Clean (path : String) : String :=
  let rooted : Bool := path.data.head? == some '/'
  let comps := (strings.Split path "/").filter (fun c => c ≠ "")
  let stack := (comps.foldl (cleanStep rooted) []).reverse
  if rooted then "/" ++ strings.Join stack "/"
  else if stack = [] then "." else strings.Join stack "/"

/-- Go `filepath.Join`: leading empty elements are ignored, the rest is joined
with the separator and cleaned; the result is empty when every element is. -/
def Join (elem : List String) : String :=
  match elem.dropWhile (fun e => e = "") with
  | [] => ""
  | e :: es => Clean (strings.Join (e :: es) "/")

end filepath

/-! ## The digest codec -/

/-- The constant `ManifestLibraryPath` of `backup.go`. -/
def ManifestLibraryPath : String := "manifests/registry.ollama.ai/library"

/-- The function `shaString` of `backup.go`. -/
def shaString (s : String) : String :=
  strings.ReplaceAll s ":" "-"

/-! ## The host: file system, configuration, manifest decoder -/

/-- Content of a regular file, one number per byte. -/
abbrev Bytes := List Nat

/-- What `os.ReadDir` reports about one child of a directory. -/
structure DirEntry where
  Name : String
  IsDir : Bool
deriving DecidableEq

/-- What a path resolves to: a regular file with its content, or a directory
with its listing. -/
inductive Node where
  | file (content : Bytes)
  | dir (entries : List DirEntry)
deriving DecidableEq

/-- The file system: what each path string resolves to, when to anything. -/
abbrev FS := String → Option Node

/-- The `config` member of `OllamaModelManifest`. -/
structure ManifestConfig where
  MediaType : String
  Digest : String
  Size : Int
deriving DecidableEq

/-- One element of the `layers` member of `OllamaModelManifest`. -/
structure ManifestLayer where
  MediaType : String
  Digest : String
  Size : Int
deriving DecidableEq

/-- The type `OllamaModelManifest` of `backup.go`. -/
structure OllamaModelManifest where
  SchemaVersion : Int
  MediaType : String
  Config : ManifestConfig
  Layers : List ManifestLayer
deriving DecidableEq

/-- What the commands take from outside the two source files: the configured
store root (`viper.GetString("ollama-models")`), the decoder
`json.Unmarshal` into `OllamaModelManifest`, and the error, if any, with which
the operating system refuses to create a file at a path. -/
structure Host where
  ollamaModels : String
  unmarshal : Bytes → Except String OllamaModelManifest
  createError : String → Option String

/-- Go `os.Create`: fails on a directory and where the host refuses; otherwise
the path resolves to an empty regular file afterwards. -/
def os.Create (h : Host) (fs : FS) (name : String) : Except String FS :=
  match fs name with
  | some (.dir _) => .error ("open " ++ name ++ ": is a directory")
  | _ =>
    match h.createError name with
    | some e => .error e
    | none => .ok (fun p => if p = name then some (.file []) else fs p)

/-- Go `os.ReadFile`. -/
def os.ReadFile (fs : FS) (name : String) : Except String Bytes :=
  match fs name with
  | some (.file c) => .ok c
  | some (.dir _) => .error ("read " ++ name ++ ": is a directory")
  | none => .error ("open " ++ name ++ ": no such file or directory")

/-- Go `os.ReadDir`. -/
def os.ReadDir (fs : FS) (name : String) : Except String (List DirEntry) :=
  match fs name with
  | some (.dir es) => .ok es
  | some (.file _) => .error ("readdirent " ++ name ++ ": not a directory")
  | none => .error ("open " ++ name ++ ": no such file or directory")

/-! ## Observable behaviour of a run -/

/-- Where a writer sends its bytes. -/
inductive Writer where
  | stdout
  | file (path : String)
deriving DecidableEq

/-- What a `tar.Writer` sends to its underlying writer: the header of an
entry (name and declared size), the content of an entry, the end-of-archive
trailer written by `Close`. -/
inductive TarRecord where
  | header (name : String) (size : Nat)
  | data (content : Bytes)
  | trailer
deriving DecidableEq

/-- The I/O calls of a run. -/
inductive Event where
  | osCreate (path : String)
  | osReadFile (path : String)
  | osOpen (path : String)
  | fileClose (path : String)
  | write (w : Writer) (r : TarRecord)
  | outputClose (path : String)
deriving DecidableEq

/-- How a run ends: the command function returns (exit status 0),
`log.Fatal` (exit status 1), or a run-time panic (exit status 2). -/
inductive Outcome where
  | returned
  | fatal (msg : String)
  | panicked (msg : String)
deriving DecidableEq

/-- A finished run of the backup command. -/
structure Result where
  outcome : Outcome
  fs : FS
  trace : List Event

/-- End of a run: a return and a panic run the deferred calls, `log.Fatal`
exits without running them. -/
def finish (fs : FS) (trace deferred : List Event) : Outcome → Result
  | .fatal msg => ⟨.fatal msg, fs, trace⟩
  | o => ⟨o, fs, trace ++ deferred⟩

/-! ## `backup.go` -/

/-- The archive name of the manifest: the second argument of `addToArchive` at
line 90 of `backup.go`. -/
def manifestEntryName (modelName modelVersion : String) : String :=
  filepath.Join [ManifestLibraryPath, modelName, modelVersion]

/-- The blob path with the digest rewritten once: the archive name of the
config blob (line 95) and the path named in the error messages of the config
blob (line 97) and of a layer (line 104). -/
def blobEntryName (digest : String) : String :=
  filepath.Join ["blobs", shaString digest]

/-- The blob path that the layer loop archives (lines 101-102): the digest is
rewritten into `name`, and `name` is rewritten again. -/
def layerEntryName (digest : String) : String :=
  let name := shaString digest
  filepath.Join ["blobs", shaString name]

/-- The function `addToArchive` of `backup.go`: the events it causes and the
error it returns, if any.  `tw` is the writer under the `tar.Writer`. -/
def addToArchive (fs : FS) (tw : Writer) (pre filename : String) :
    List Event × Option String :=
  let p := filepath.Join [pre, filename]
  match fs p with
  | none => ([.osOpen p], some ("open " ++ p ++ ": no such file or directory"))
  | some (.file c) =>
    ([.osOpen p, .write tw (.header filename c.length), .write tw (.data c), .fileClose p],
      none)
  | some (.dir _) =>
    ([.osOpen p, .write tw (.header filename 0), .fileClose p],
      some ("read " ++ p ++ ": is a directory"))

/-- The loop over `manifest.Layers` in `backupCmd.Run`: the events it causes
and the message of the `log.Fatalf` that ends it, if any. -/
def addLayers (fs : FS) (tw : Writer) (ollamaPath : String) :
    List ManifestLayer → List Event × Option String
  | [] => ([], none)
  | blob :: rest =>
    match addToArchive fs tw ollamaPath (layerEntryName blob.Digest) with
    | (evs, some err) =>
      (evs, some ("error adding model digest to archive "
        ++ blobEntryName blob.Digest ++ ": " ++ err))
    | (evs, none) =>
      match addLayers fs tw ollamaPath rest with
      | (evs2, r) => (evs ++ evs2, r)

/-- The part of `backupCmd.Run` from `strings.Split` on (lines 70-111), run
with the writer `outWriter`, the events `trace` so far and the calls
`deferred` so far. -/
def backupBody (h : Host) (fs : FS) (outWriter : Writer) (trace deferred : List Event)
    (arg : String) : Result :=
  let ollamaPath := h.ollamaModels
  let librarypath := filepath.Join [ollamaPath, ManifestLibraryPath]
  let modelArgs := strings.Split arg ":"
  match modelArgs[0]? with
  | none => finish fs trace deferred
      (.panicked "runtime error: index out of range [0] with length 0")
  | some modelName =>
  match modelArgs[1]? with
  | none => finish fs trace deferred
      (.panicked "runtime error: index out of range [1] with length 1")
  | some modelVersion =>
  let modelPath := filepath.Join [librarypath, modelName, modelVersion]
  if modelName = "" ∨ modelVersion = "" then
    finish fs trace deferred (.fatal "model name and version must be specified")
  else
  let trace := trace ++ [.osReadFile modelPath]
  match os.ReadFile fs modelPath with
  | .error err => finish fs trace deferred
      (.fatal ("error reading model manifest " ++ modelPath ++ ": " ++ err))
  | .ok jsonbt =>
  match h.unmarshal jsonbt with
  | .error err => finish fs trace deferred
      (.fatal ("error parsing model manifest " ++ modelPath ++ ": " ++ err))
  | .ok manifest =>
  let tw := outWriter
  match addToArchive fs tw ollamaPath (manifestEntryName modelName modelVersion) with
  | (evs, some err) => finish fs (trace ++ evs) deferred
      (.fatal ("error adding model to archive: " ++ err))
  | (evs, none) =>
  let trace := trace ++ evs
  match addToArchive fs tw ollamaPath (blobEntryName manifest.Config.Digest) with
  | (evs, some err) => finish fs (trace ++ evs) deferred
      (.fatal ("error adding model digest to archive "
        ++ blobEntryName manifest.Config.Digest ++ ": " ++ err))
  | (evs, none) =>
  let trace := trace ++ evs
  match addLayers fs tw ollamaPath manifest.Layers with
  | (evs, some msg) => finish fs (trace ++ evs) deferred (.fatal msg)
  | (evs, none) =>
  finish fs (trace ++ evs ++ [.write tw .trailer]) deferred .returned

/-- The function `backupCmd.Run` of `backup.go`, for the value `outFile` of the
flag `file` and the positional argument `arg`.  As in the source, `outWriter`
is bound to standard output and is not assigned again when the output file is
created. -/
def backupCmd.Run (h : Host) (fs : FS) (outFile arg : String) : Result :=
  let outWriter := Writer.stdout
  if outFile ≠ "-" then
    match os.Create h fs outFile with
    | .error err => finish fs [.osCreate outFile] [] (.fatal err)
    | .ok fs1 => backupBody h fs1 outWriter [.osCreate outFile] [.outputClose outFile] arg
  else
    backupBody h fs outWriter [] [] arg

/-! ## `list.go` -/

/-- Go `modelMap[k] = append(modelMap[k], v)` on a map kept as a list of
bindings with distinct keys. -/
def mapAppend : List (String × List String) → String → String → List (String × List String)
  | [], k, v => [(k, [v])]
  | (k1, vs) :: rest, k, v =>
    if k1 = k then (k1, vs ++ [v]) :: rest else (k1, vs) :: mapAppend rest k v

/-- The inner loop of `listCmd.Run` over the children `vers` of the directory
`name`. -/
def addVersions (modelMap : List (String × List String)) (name : String) :
    List DirEntry → List (String × List String)
  | [] => modelMap
  | ver :: rest =>
    if !ver.IsDir then addVersions (mapAppend modelMap name ver.Name) name rest
    else addVersions modelMap name rest

/-- The outer loop of `listCmd.Run` over the entries of the library directory;
an error is the message of the `log.Fatal` that ends it. -/
def scanLibrary (fs : FS) (librarypath : String) (modelMap : List (String × List String)) :
    List DirEntry → Except String (List (String × List String))
  | [] => .ok modelMap
  | entry :: rest =>
    if entry.IsDir then
      match os.ReadDir fs (filepath.Join [librarypath, entry.Name]) with
      | .error err => .error err
      | .ok vers => scanLibrary fs librarypath (addVersions modelMap entry.Name vers) rest
    else scanLibrary fs librarypath modelMap rest

/-- A finished run of the list command: `report` is the final `modelMap`,
`stdout` the lines printed. -/
structure ListResult where
  outcome : Outcome
  report : List (String × List String)
  stdout : List String

/-- The function `listCmd.Run` of `list.go`.  Go ranges over a map in an
unspecified order; the lines are given here in the order in which the keys
were first inserted. -/
def listCmd.Run (h : Host) (fs : FS) : ListResult :=
  let ollamaPath := h.ollamaModels
  let librarypath := filepath.Join [ollamaPath, "manifests/registry.ollama.ai/library/"]
  let banner := "--- " ++ librarypath ++ " ---\n"
  match os.ReadDir fs librarypath with
  | .error err => ⟨.fatal err, [], [banner]⟩
  | .ok dir =>
    match scanLibrary fs librarypath [] dir with
    | .error err => ⟨.fatal err, [], [banner]⟩
    | .ok modelMap =>
      ⟨.returned, modelMap,
        banner :: modelMap.map (fun nv => nv.1 ++ ": " ++ strings.Join nv.2 "," ++ "\n")⟩

/-! ## Notions used to state the properties -/

/-- The records that a run sends through its tar writer, in order. -/
def tarRecords : List Event → List TarRecord
  | [] => []
  | .write _ r :: rest => r :: tarRecords rest
  | _ :: rest => tarRecords rest

/-- The records that a run sends to the writer `w`, in order. -/
def writesTo (w : Writer) : List Event → List TarRecord
  | [] => []
  | .write w1 r :: rest => if w1 = w then r :: writesTo w rest else writesTo w rest
  | _ :: rest => writesTo w rest

/-- An archive entry: logical path, declared size, content. -/
structure ArchiveEntry where
  path : String
  size : Nat
  content : Bytes
deriving DecidableEq

/-- The record stream of the entries of an archive, without the trailer. -/
def entryRecords : List ArchiveEntry → List TarRecord
  | [] => []
  | e :: rest => .header e.path e.size :: .data e.content :: entryRecords rest

/-- The record stream of a finalized archive: its entries, then the trailer. -/
def archiveRecords (entries : List ArchiveEntry) : List TarRecord :=
  entryRecords entries ++ [.trailer]

/-- The content of the regular file at a path, empty when there is none. -/
def fileContent (fs : FS) (p : String) : Bytes :=
  match fs p with
  | some (.file c) => c
  | _ => []

/-- The archive entry of the source file with logical path `name` under the
store root. -/
def sourceEntry (fs : FS) (root name : String) : ArchiveEntry :=
  ⟨name, (fileContent fs (filepath.Join [root, name])).length,
    fileContent fs (filepath.Join [root, name])⟩

/-- Unpacking an archive at a directory: the content of every entry, in
order, is written to the file at the entry path under that directory. -/
def extract (root : String) : List ArchiveEntry → FS → FS
  | [], fs => fs
  | e :: rest, fs =>
    extract root rest
      (fun p => if p = filepath.Join [root, e.path] then some (.file e.content) else fs p)

/-- The file system that the command reads the store from: the given one for
the destination `-`, and the one `os.Create` leaves otherwise (lines 56-68). -/
def openOutput (h : Host) (fs : FS) (outFile : String) : Except String FS :=
  if outFile ≠ "-" then os.Create h fs outFile else .ok fs

/-- The digests a manifest references: the config blob, then the layers in
manifest order. -/
def referencedDigests (m : OllamaModelManifest) : List String :=
  m.Config.Digest :: m.Layers.map (fun l => l.Digest)

/-- The names of the non-directory children in a directory listing. -/
def nonDirNames (vers : List DirEntry) : List String :=
  (vers.filter (fun ver => !ver.IsDir)).map (fun ver => ver.Name)

/-- The listing of a directory, empty when it cannot be read. -/
def listing (fs : FS) (p : String) : List DirEntry :=
  match os.ReadDir fs p with
  | .ok es => es
  | .error _ => []

/-- The library directory that `listCmd.Run` reads. -/
def libraryDir (h : Host) : String :=
  filepath.Join [h.ollamaModels, "manifests/registry.ollama.ai/library/"]

/-- The line that `listCmd.Run` prints for a model and its versions. -/
def reportLine (nv : String × List String) : String :=
  nv.1 ++ ": " ++ strings.Join nv.2 "," ++ "\n"

/-- The character map that `shaString` applies at every position. -/
def dashColon (c : Char) : Char := if c = ':' then '-' else c

/-- The non-empty path elements of a path string. -/
def comps (s : String) : List String :=
  (strings.Split s "/").filter (fun c => c ≠ "")

/-- A path element: non-empty and without separator. -/
def IsElem (c : String) : Prop := c ≠ "" ∧ '/' ∉ c.data

/-- Whether a path string starts at the root. -/
def rootedS (s : String) : Bool := s.data.head? == some '/'

/-- The stack of path elements that `filepath.Clean` keeps, top first. -/
def normS (r : Bool) (cs : List String) : List String :=
  cs.foldl (filepath.cleanStep r) []

/-- The path string of a stack of kept elements, bottom first. -/
def renderPath (r : Bool) (st : List String) : String :=
  if r then "/" ++ strings.Join st "/"
  else if st = [] then "." else strings.Join st "/"

/-- The entries that a backup of `name:version` with manifest `m` is to hold:
the manifest, the config blob, the layer blobs in manifest order, each with the
size and content of its source file under the store root. -/
def expectedEntries (fs : FS) (root name version : String) (m : OllamaModelManifest) :
    List ArchiveEntry :=
  (manifestEntryName name version :: (referencedDigests m).map blobEntryName).map
    (sourceEntry fs root)

/-- The lines the list command is to report for a library listing: one per
directory entry that has a non-directory child, with the names of those
children. -/
def expectedReport (fs : FS) (lib : String) (dir : List DirEntry) :
    List (String × List String) :=
  dir.filterMap (fun e =>
    if e.IsDir = true ∧ nonDirNames (listing fs (filepath.Join [lib, e.Name])) ≠ [] then
      some (e.Name, nonDirNames (listing fs (filepath.Join [lib, e.Name])))
    else none)

/-! ## A sample store -/

/-- A manifest with config digest `sha256:aaaa` and one layer `sha256:bbbb`. -/
def sampleManifest : OllamaModelManifest :=
  ⟨2, "application/vnd.docker.distribution.manifest.v2+json",
    ⟨"application/vnd.docker.container.image.v1+json", "sha256:aaaa", 2⟩,
    [⟨"application/vnd.ollama.image.model", "sha256:bbbb", 3⟩]⟩

/-- A manifest whose layer `sha256:cccc` has no blob in the sample store. -/
def brokenManifest : OllamaModelManifest :=
  ⟨2, "application/vnd.docker.distribution.manifest.v2+json",
    ⟨"application/vnd.docker.container.image.v1+json", "sha256:aaaa", 2⟩,
    [⟨"application/vnd.ollama.image.model", "sha256:cccc", 3⟩]⟩

/-- A host with store root `/m`; the decoder knows the two manifest files of
the sample store. -/
def sampleHost : Host :=
  { ollamaModels := "/m"
    unmarshal := fun b =>
      if b = [123, 125] then .ok sampleManifest
      else if b = [123, 32, 125] then .ok brokenManifest
      else .error "unexpected end of JSON input"
    createError := fun _ => none }

/-- A store with the model `llama3:8b` and its two blobs, the model
`broken:1` whose layer blob is absent, and an older archive `old.tar` in the
working directory. -/
def sampleFS : FS := fun p =>
  if p = "/m/manifests/registry.ollama.ai/library/llama3/8b" then some (.file [123, 125])
  else if p = "/m/manifests/registry.ollama.ai/library/broken/1" then some (.file [123, 32, 125])
  else if p = "/m/blobs/sha256-aaaa" then some (.file [10, 11])
  else if p = "/m/blobs/sha256-bbbb" then some (.file [20, 21, 22])
  else if p = "old.tar" then some (.file [1, 2, 3, 4])
  else none

/-- A manifest without config digest, with one layer `sha256:cccc`. -/
def nocfgManifest : OllamaModelManifest :=
  ⟨2, "application/vnd.docker.distribution.manifest.v2+json",
    ⟨"", "", 0⟩,
    [⟨"application/vnd.ollama.image.model", "sha256:cccc", 3⟩]⟩

/-- A host with store root `/m` whose decoder knows the manifest file of the
store `nocfgFS`. -/
def nocfgHost : Host :=
  { ollamaModels := "/m"
    unmarshal := fun b =>
      if b = [123, 125] then .ok nocfgManifest
      else .error "unexpected end of JSON input"
    createError := fun _ => none }

/-- A store with the model `nocfg:1` and an empty directory `blobs`: the layer
blob `sha256:cccc` is absent. -/
def nocfgFS : FS := fun p =>
  if p = "/m/manifests/registry.ollama.ai/library/nocfg/1" then some (.file [123, 125])
  else if p = "/m/blobs" then some (.dir [])
  else none

/-- A library with the model `foo` (versions `1` and `2`, and a nested
directory), a model directory `empty` without children, and a plain file. -/
def listFS : FS := fun p =>
  if p = "/m/manifests/registry.ollama.ai/library" then
    some (.dir [⟨"foo", true⟩, ⟨"empty", true⟩, ⟨"README", false⟩])
  else if p = "/m/manifests/registry.ollama.ai/library/foo" then
    some (.dir [⟨"1", false⟩, ⟨"2", false⟩, ⟨"nested", true⟩])
  else if p = "/m/manifests/registry.ollama.ai/library/empty" then some (.dir [])
  else none

/-- A library with the single model `foo` with versions `1` and `2`. -/
def fooFS : FS := fun p =>
  if p = "/m/manifests/registry.ollama.ai/library" then some (.dir [⟨"foo", true⟩])
  else if p = "/m/manifests/registry.ollama.ai/library/foo" then
    some (.dir [⟨"1", false⟩, ⟨"2", false⟩])
  else none

/-! ## The digest codec: lemmas -/

theorem replaceScan_single (a b : Char) (l : List Char) :
    strings.replaceScan [a] [b] l 0 = l.map (fun c => if c = a then b else c) := by
  induction l with
  | nil => rfl
  | cons c cs ih =>
    by_cases hc : c = a
    · subst hc
      simp [strings.replaceScan, List.isPrefixOf, ih]
    · have hc2 : ¬ a = c := fun e => hc e.symm
      simp [strings.replaceScan, List.isPrefixOf, ih, hc, hc2]

theorem shaString_data (s : String) : (shaString s).data = s.data.map dashColon := by
  show strings.replaceScan [':'] ['-'] s.data 0 = _
  rw [replaceScan_single]
  rfl

theorem dashColon_ne_colon (c : Char) : dashColon c ≠ ':' := by
  unfold dashColon
  split
  · decide
  · assumption

theorem map_dashColon_inj : ∀ (a b : List Char), '-' ∉ a → '-' ∉ b →
    a.map dashColon = b.map dashColon → a = b
  | [], [], _, _, _ => rfl
  | [], _ :: _, _, _, h => by simp at h
  | _ :: _, [], _, _, h => by simp at h
  | x :: xs, y :: ys, ha, hb, h => by
    simp only [List.map_cons, List.cons.injEq] at h
    simp only [List.mem_cons, not_or] at ha hb
    have ht := map_dashColon_inj xs ys ha.2 hb.2 h.2
    have hh : x = y := by
      have h1 := h.1
      unfold dashColon at h1
      have hx : ¬ '-' = x := ha.1
      have hy : ¬ '-' = y := hb.1
      split at h1 <;> split at h1 <;> simp_all
    rw [hh, ht]

/-! ## Path algebra -/

theorem splitScan_ne_nil (a : Char) (l : List Char) : strings.splitScan [a] l 0 ≠ [] := by
  cases l with
  | nil => simp [strings.splitScan]
  | cons c cs =>
    by_cases hc : a = c
    · simp [strings.splitScan, List.isPrefixOf, hc]
    · simp only [strings.splitScan, List.isPrefixOf, hc, beq_iff_eq, Bool.and_true, if_false]
      split <;> simp

theorem splitScan_sep (a : Char) (cs : List Char) :
    strings.splitScan [a] (a :: cs) 0 = [] :: strings.splitScan [a] cs 0 := by
  simp [strings.splitScan, List.isPrefixOf]

theorem splitScan_other (a c : Char) (cs : List Char) (hc : c ≠ a) :
    ∃ p ps, strings.splitScan [a] cs 0 = p :: ps ∧
      strings.splitScan [a] (c :: cs) 0 = (c :: p) :: ps := by
  have hc2 : ¬ a = c := fun e => hc e.symm
  cases hs : strings.splitScan [a] cs 0 with
  | nil => exact absurd hs (splitScan_ne_nil a cs)
  | cons p ps =>
    refine ⟨p, ps, rfl, ?_⟩
    simp [strings.splitScan, List.isPrefixOf, hc2, hs]

theorem splitScan_append (a : Char) (x y : List Char) :
    strings.splitScan [a] (x ++ a :: y) 0
      = strings.splitScan [a] x 0 ++ strings.splitScan [a] y 0 := by
  induction x with
  | nil => simp [splitScan_sep, strings.splitScan]
  | cons c cs ih =>
    by_cases hc : c = a
    · subst hc
      simp [splitScan_sep, ih]
    · obtain ⟨p, ps, h1, h2⟩ := splitScan_other a c cs hc
      obtain ⟨q, qs, h3, h4⟩ := splitScan_other a c (cs ++ a :: y) hc
      rw [List.cons_append, h4, h2]
      rw [ih, h1] at h3
      simp only [List.cons_append, List.cons.injEq] at h3
      simp [h3.1, h3.2]

theorem splitScan_noSep (a : Char) (l : List Char) (h : a ∉ l) :
    strings.splitScan [a] l 0 = [l] := by
  induction l with
  | nil => rfl
  | cons c cs ih =>
    simp only [List.mem_cons, not_or] at h
    obtain ⟨p, ps, h1, h2⟩ := splitScan_other a c cs (fun e => h.1 e.symm)
    rw [ih h.2] at h1
    simp only [List.cons.injEq] at h1
    rw [h2, ← h1.1, ← h1.2]

theorem splitScan_pieces (a : Char) (l : List Char) :
    ∀ p ∈ strings.splitScan [a] l 0, a ∉ p := by
  induction l with
  | nil => simp [strings.splitScan]
  | cons c cs ih =>
    by_cases hc : c = a
    · subst hc
      rw [splitScan_sep]
      intro p hp
      rcases List.mem_cons.mp hp with h | h
      · simp [h]
      · exact ih p h
    · obtain ⟨q, qs, h1, h2⟩ := splitScan_other a c cs hc
      rw [h2]
      rw [h1] at ih
      intro p hp
      rcases List.mem_cons.mp hp with h | h
      · subst h
        have := ih q (List.mem_cons_self _ _)
        simp only [List.mem_cons, not_or]
        exact ⟨fun e => hc e.symm, this⟩
      · exact ih p (List.mem_cons_of_mem _ h)

theorem comps_append (x y : String) : comps (x ++ "/" ++ y) = comps x ++ comps y := by
  unfold comps strings.Split
  have : (x ++ "/" ++ y).data = x.data ++ '/' :: y.data := by
    simp [String.data_append]
  rw [this]
  show List.filter _ (List.map String.mk (strings.splitScan ['/'] _ 0)) = _
  rw [splitScan_append, List.map_append, List.filter_append]



theorem comps_elem (s : String) : ∀ c ∈ comps s, IsElem c := by
  intro c hc
  unfold comps strings.Split at hc
  rw [List.mem_filter, List.mem_map] at hc
  obtain ⟨⟨p, hp, rfl⟩, hne⟩ := hc
  exact ⟨by simpa using hne, splitScan_pieces '/' s.data p hp⟩

theorem comps_of_elem (c : String) (h : IsElem c) : comps c = [c] := by
  unfold comps strings.Split
  show List.filter _ (List.map String.mk (strings.splitScan ['/'] c.data 0)) = _
  rw [splitScan_noSep _ _ h.2]
  simp [h.1]

theorem comps_empty : comps "" = [] := by decide

theorem comps_join (l : List String) (h : ∀ c ∈ l, IsElem c) :
    comps (strings.Join l "/") = l := by
  induction l with
  | nil => exact comps_empty
  | cons a rest ih =>
    cases rest with
    | nil => exact comps_of_elem a (h a (List.mem_cons_self _ _))
    | cons b rest2 =>
      show comps (a ++ "/" ++ strings.Join (b :: rest2) "/") = _
      rw [comps_append, comps_of_elem a (h a (List.mem_cons_self _ _)),
        ih (fun c hc => h c (List.mem_cons_of_mem _ hc))]
      rfl





theorem Clean_eq (s : String) :
    filepath.Clean s = renderPath (rootedS s) (normS (rootedS s) (comps s)).reverse := rfl

theorem cleanStep_dot (r : Bool) (S : List String) : filepath.cleanStep r S "." = S := by
  simp [filepath.cleanStep]

theorem cleanStep_name (r : Bool) (S : List String) (c : String) (h1 : c ≠ ".")
    (h2 : c ≠ "..") : filepath.cleanStep r S c = c :: S := by
  simp [filepath.cleanStep, h1, h2]

theorem cleanStep_up_nil (r : Bool) :
    filepath.cleanStep r [] ".." = if r then [] else [".."] := by
  simp [filepath.cleanStep]

theorem cleanStep_up_up (r : Bool) (rest : List String) :
    filepath.cleanStep r (".." :: rest) ".." = ".." :: ".." :: rest := by
  simp [filepath.cleanStep]

theorem cleanStep_up_name (r : Bool) (t : String) (rest : List String) (h : t ≠ "..") :
    filepath.cleanStep r (t :: rest) ".." = rest := by
  simp [filepath.cleanStep, h]

theorem cleanStep_inv (r : Bool) (S : List String) (x : String) (hx : IsElem x)
    (hS : ∀ c ∈ S, IsElem c ∧ c ≠ ".") : ∀ c ∈ filepath.cleanStep r S x, IsElem c ∧ c ≠ "." := by
  by_cases h1 : x = "."
  · subst h1
    rw [cleanStep_dot]
    exact hS
  by_cases h2 : x = ".."
  · subst h2
    cases S with
    | nil =>
      rw [cleanStep_up_nil]
      cases r
      · intro c hc
        simp only [Bool.false_eq_true, if_false, List.mem_singleton] at hc
        subst hc
        exact ⟨hx, by decide⟩
      · simp
    | cons t rest =>
      by_cases h3 : t = ".."
      · subst h3
        rw [cleanStep_up_up]
        intro c hc
        rcases List.mem_cons.mp hc with h | h
        · subst h
          exact ⟨hx, by decide⟩
        · exact hS c h
      · rw [cleanStep_up_name r t rest h3]
        intro c hc
        exact hS c (List.mem_cons_of_mem _ hc)
  · rw [cleanStep_name r S x h1 h2]
    intro c hc
    rcases List.mem_cons.mp hc with h | h
    · subst h
      exact ⟨hx, h1⟩
    · exact hS c h

theorem foldl_cleanStep_inv (r : Bool) (cs : List String) (hcs : ∀ c ∈ cs, IsElem c) :
    ∀ (S : List String), (∀ c ∈ S, IsElem c ∧ c ≠ ".") →
      ∀ c ∈ cs.foldl (filepath.cleanStep r) S, IsElem c ∧ c ≠ "." := by
  induction cs with
  | nil => intro S hS; exact hS
  | cons x xs ih =>
    intro S hS
    rw [List.foldl_cons]
    exact ih (fun c hc => hcs c (List.mem_cons_of_mem _ hc)) _
      (cleanStep_inv r S x (hcs x (List.mem_cons_self _ _)) hS)

theorem normS_inv (r : Bool) (cs : List String) (hcs : ∀ c ∈ cs, IsElem c) :
    ∀ c ∈ normS r cs, IsElem c ∧ c ≠ "." :=
  foldl_cleanStep_inv r cs hcs [] (by simp)

theorem normS_snoc (r : Bool) (ys : List String) (y : String) :
    normS r (ys ++ [y]) = filepath.cleanStep r (normS r ys) y := by
  simp [normS, List.foldl_append]

/-- Replaying a cleaned stack gives what the uncleaned elements give. -/
theorem replay (r r2 : Bool) (T : List String) (hc : r2 = true → T = [] ∧ r = true)
    (ys : List String) (hys : ∀ c ∈ ys, IsElem c) :
    (normS r2 ys).reverse.foldl (filepath.cleanStep r) T
      = ys.foldl (filepath.cleanStep r) T := by
  induction ys using List.reverseRecOn with
  | nil => rfl
  | append_singleton ys y ih =>
    have hys1 : ∀ c ∈ ys, IsElem c := fun c hc => hys c (List.mem_append_left _ hc)
    have ih := ih hys1
    have hP := normS_inv r2 ys hys1
    rw [normS_snoc, List.foldl_append, List.foldl_cons, List.foldl_nil, ← ih]
    by_cases h1 : y = "."
    · subst h1
      rw [cleanStep_dot, cleanStep_dot]
    by_cases h2 : y = ".."
    · subst h2
      cases hS : normS r2 ys with
      | nil =>
        rw [cleanStep_up_nil]
        cases r2
        · simp
        · obtain ⟨hT, hr⟩ := hc rfl
          subst hT
          subst hr
          simp [cleanStep_up_nil]
      | cons t rest =>
        by_cases h3 : t = ".."
        · subst h3
          rw [cleanStep_up_up]
          simp [List.foldl_append]
        · rw [cleanStep_up_name r2 t rest h3]
          have ht : t ≠ "." := (hP t (by rw [hS]; exact List.mem_cons_self _ _)).2
          rw [List.reverse_cons, List.foldl_append, List.foldl_cons, List.foldl_nil,
            cleanStep_name r _ t ht h3, cleanStep_up_name r t _ h3]
    · rw [cleanStep_name r2 _ y h1 h2, List.reverse_cons, List.foldl_append,
        List.foldl_cons, List.foldl_nil]


theorem foldl_comps_render (r r2 : Bool) (T st : List String) (h : ∀ c ∈ st, IsElem c) :
    (comps (renderPath r st)).foldl (filepath.cleanStep r2) T
      = st.foldl (filepath.cleanStep r2) T := by
  cases r with
  | true =>
    show (comps ("" ++ "/" ++ strings.Join st "/")).foldl _ T = _
    rw [comps_append, comps_empty, comps_join st h, List.nil_append]
  | false =>
    cases st with
    | nil =>
      show (comps ".").foldl _ T = _
      have : comps "." = ["."] := by decide
      rw [this, List.foldl_cons, cleanStep_dot]
    | cons e rest =>
      show (comps (strings.Join (e :: rest) "/")).foldl _ T = _
      rw [comps_join _ h]

theorem normS_rev_elem (r : Bool) (s : String) :
    ∀ c ∈ (normS r (comps s)).reverse, IsElem c := by
  intro c hc
  exact (normS_inv r (comps s) (comps_elem s) c (List.mem_reverse.mp hc)).1

theorem foldl_comps_Clean (s : String) (r : Bool) (T : List String)
    (hc : rootedS s = true → T = [] ∧ r = true) :
    (comps (filepath.Clean s)).foldl (filepath.cleanStep r) T
      = (comps s).foldl (filepath.cleanStep r) T := by
  rw [Clean_eq, foldl_comps_render _ _ _ _ (normS_rev_elem _ s)]
  exact replay r (rootedS s) T hc (comps s) (comps_elem s)

theorem Join_cons_data (e : String) (rest : List String) (sep : String) :
    ∃ w : List Char, (strings.Join (e :: rest) sep).data = e.data ++ w := by
  cases rest with
  | nil => exact ⟨[], by simp [strings.Join]⟩
  | cons b rest2 =>
    exact ⟨sep.data ++ (strings.Join (b :: rest2) sep).data, by
      simp [strings.Join, String.data_append]⟩

theorem rootedS_render (r : Bool) (st : List String) (h : ∀ c ∈ st, IsElem c) :
    rootedS (renderPath r st) = r := by
  cases r with
  | true =>
    show (("/" ++ strings.Join st "/").data.head? == some '/') = true
    simp [String.data_append]
  | false =>
    cases st with
    | nil => decide
    | cons e rest =>
      show ((strings.Join (e :: rest) "/").data.head? == some '/') = false
      obtain ⟨w, hw⟩ := Join_cons_data e rest "/"
      rw [hw]
      have he := h e (List.mem_cons_self _ _)
      cases hd : e.data with
      | nil => exact absurd (String.ext hd) he.1
      | cons c cs =>
        have : c ≠ '/' := by
          intro e1
          apply he.2
          rw [hd, e1]
          exact List.mem_cons_self _ _
        simp [this]

theorem render_ne_empty (r : Bool) (st : List String) (h : ∀ c ∈ st, IsElem c) :
    renderPath r st ≠ "" := by
  intro e
  have h1 := congrArg String.data e
  cases r with
  | true =>
    have : (renderPath true st).data = '/' :: (strings.Join st "/").data := by
      show ("/" ++ strings.Join st "/").data = _
      simp [String.data_append]
    rw [this] at h1
    simp at h1
  | false =>
    cases st with
    | nil => exact absurd e (by decide)
    | cons a rest =>
      have h2 : (renderPath false (a :: rest)) = strings.Join (a :: rest) "/" := rfl
      obtain ⟨w, hw⟩ := Join_cons_data a rest "/"
      rw [h2, hw] at h1
      have ha := (h a (List.mem_cons_self _ _)).1
      have : a.data = [] := by
        cases hd : a.data with
        | nil => rfl
        | cons c cs => rw [hd] at h1; simp at h1
      exact ha (String.ext this)

theorem rootedS_Clean (s : String) : rootedS (filepath.Clean s) = rootedS s := by
  rw [Clean_eq, rootedS_render _ _ (normS_rev_elem _ s)]

theorem Clean_ne_empty (s : String) : filepath.Clean s ≠ "" := by
  rw [Clean_eq]
  exact render_ne_empty _ _ (normS_rev_elem _ s)

theorem rootedS_append (x z : String) (hx : x ≠ "") : rootedS (x ++ z) = rootedS x := by
  unfold rootedS
  rw [String.data_append]
  cases hd : x.data with
  | nil => exact absurd (String.ext hd) hx
  | cons c cs => rfl

theorem Clean_congr (s t : String) (hr : rootedS s = rootedS t)
    (hn : normS (rootedS t) (comps s) = normS (rootedS t) (comps t)) :
    filepath.Clean s = filepath.Clean t := by
  rw [Clean_eq, Clean_eq, hr, hn]

theorem Clean_idem (z : String) : filepath.Clean (filepath.Clean z) = filepath.Clean z := by
  apply Clean_congr _ _ (rootedS_Clean z)
  exact foldl_comps_Clean z (rootedS z) [] (fun h => ⟨rfl, h⟩)

theorem Clean_left (x y : String) (hx : x ≠ "") :
    filepath.Clean (filepath.Clean x ++ "/" ++ y) = filepath.Clean (x ++ "/" ++ y) := by
  have hr : rootedS (x ++ "/" ++ y) = rootedS x := by
    rw [String.append_assoc, rootedS_append x _ hx]
  apply Clean_congr
  · rw [hr, String.append_assoc, rootedS_append _ _ (Clean_ne_empty x), rootedS_Clean]
  · rw [hr]
    unfold normS
    rw [comps_append, comps_append, List.foldl_append, List.foldl_append,
      foldl_comps_Clean x (rootedS x) [] (fun h => ⟨rfl, h⟩)]

theorem Clean_right (x y : String) (hx : x ≠ "") (hy : rootedS y = false) :
    filepath.Clean (x ++ "/" ++ filepath.Clean y) = filepath.Clean (x ++ "/" ++ y) := by
  have hr : rootedS (x ++ "/" ++ y) = rootedS x := by
    rw [String.append_assoc, rootedS_append x _ hx]
  apply Clean_congr
  · rw [hr, String.append_assoc, rootedS_append x _ hx]
  · rw [hr]
    unfold normS
    rw [comps_append, comps_append, List.foldl_append, List.foldl_append,
      foldl_comps_Clean y (rootedS x) _ (fun h => by rw [hy] at h; cases h)]

theorem Join_two (a b : String) (ha : a ≠ "") :
    filepath.Join [a, b] = filepath.Clean (a ++ "/" ++ b) := by
  simp [filepath.Join, List.dropWhile, ha, strings.Join]

theorem Join_three (a b c : String) (ha : a ≠ "") :
    filepath.Join [a, b, c] = filepath.Clean (a ++ "/" ++ (b ++ "/" ++ c)) := by
  simp [filepath.Join, List.dropWhile, ha, strings.Join]

theorem Join_empty_left (b : String) (hb : b ≠ "") :
    filepath.Join ["", b] = filepath.Clean b := by
  simp [filepath.Join, List.dropWhile, hb, strings.Join]

theorem ManifestLibraryPath_ne : ManifestLibraryPath ≠ "" := by decide

/-- The path that `backupCmd.Run` reads the manifest from is the path under
which `addToArchive` opens it. -/
theorem modelPath_eq (root name version : String) :
    filepath.Join [filepath.Join [root, ManifestLibraryPath], name, version]
      = filepath.Join [root, filepath.Join [ManifestLibraryPath, name, version]] := by
  rw [Join_three ManifestLibraryPath name version ManifestLibraryPath_ne]
  by_cases hr : root = ""
  · subst hr
    rw [Join_empty_left _ ManifestLibraryPath_ne, Join_empty_left _ (Clean_ne_empty _),
      Join_three _ _ _ (Clean_ne_empty _), Clean_idem,
      Clean_left _ _ ManifestLibraryPath_ne]
  · rw [Join_two root _ hr, Join_two root _ hr, Join_three _ _ _ (Clean_ne_empty _),
      Clean_left _ _ (by
        intro e
        have := congrArg String.data e
        simp [String.data_append] at this),
      Clean_right root _ hr (by
        rw [String.append_assoc, rootedS_append _ _ ManifestLibraryPath_ne]
        decide)]
    simp only [String.append_assoc]

/-! ## The backup command: lemmas -/

theorem shaString_idem (s : String) : shaString (shaString s) = shaString s := by
  apply String.ext
  rw [shaString_data, shaString_data, List.map_map]
  apply List.map_congr_left
  intro c _
  simp only [Function.comp, dashColon]
  split <;> simp_all

theorem layerEntryName_eq (d : String) : layerEntryName d = blobEntryName d := by
  unfold layerEntryName blobEntryName
  simp only [shaString_idem]

theorem addToArchive_file (fs : FS) (tw : Writer) (pre filename : String) (c : Bytes)
    (hf : fs (filepath.Join [pre, filename]) = some (.file c)) :
    addToArchive fs tw pre filename
      = ([.osOpen (filepath.Join [pre, filename]), .write tw (.header filename c.length),
          .write tw (.data c), .fileClose (filepath.Join [pre, filename])], none) := by
  simp only [addToArchive, hf]

theorem addToArchive_missing (fs : FS) (tw : Writer) (pre filename : String)
    (hf : fs (filepath.Join [pre, filename]) = none) :
    addToArchive fs tw pre filename
      = ([.osOpen (filepath.Join [pre, filename])],
          some ("open " ++ filepath.Join [pre, filename] ++ ": no such file or directory")) := by
  simp only [addToArchive, hf]

theorem backupBody_manifest (h : Host) (fs : FS) (w : Writer) (tr df : List Event)
    (arg name version : String) (rest : List String) (jsonbt : Bytes)
    (m : OllamaModelManifest)
    (hsplit : strings.Split arg ":" = name :: version :: rest)
    (hname : name ≠ "") (hver : version ≠ "")
    (hman : fs (filepath.Join [h.ollamaModels, manifestEntryName name version])
      = some (.file jsonbt))
    (hdec : h.unmarshal jsonbt = .ok m) :
    backupBody h fs w tr df arg =
      match addToArchive fs w h.ollamaModels (blobEntryName m.Config.Digest) with
      | (evs, some err) =>
        finish fs (tr ++ [.osReadFile (filepath.Join [h.ollamaModels, manifestEntryName name version])]
          ++ [.osOpen (filepath.Join [h.ollamaModels, manifestEntryName name version]),
              .write w (.header (manifestEntryName name version) jsonbt.length),
              .write w (.data jsonbt),
              .fileClose (filepath.Join [h.ollamaModels, manifestEntryName name version])]
          ++ evs) df
          (.fatal ("error adding model digest to archive "
            ++ blobEntryName m.Config.Digest ++ ": " ++ err))
      | (evs, none) =>
        match addLayers fs w h.ollamaModels m.Layers with
        | (evs2, some msg) =>
          finish fs (tr ++ [.osReadFile (filepath.Join [h.ollamaModels, manifestEntryName name version])]
            ++ [.osOpen (filepath.Join [h.ollamaModels, manifestEntryName name version]),
                .write w (.header (manifestEntryName name version) jsonbt.length),
                .write w (.data jsonbt),
                .fileClose (filepath.Join [h.ollamaModels, manifestEntryName name version])]
            ++ evs ++ evs2) df (.fatal msg)
        | (evs2, none) =>
          finish fs (tr ++ [.osReadFile (filepath.Join [h.ollamaModels, manifestEntryName name version])]
            ++ [.osOpen (filepath.Join [h.ollamaModels, manifestEntryName name version]),
                .write w (.header (manifestEntryName name version) jsonbt.length),
                .write w (.data jsonbt),
                .fileClose (filepath.Join [h.ollamaModels, manifestEntryName name version])]
            ++ evs ++ evs2 ++ [.write w .trailer]) df .returned := by
  have hmp : filepath.Join [filepath.Join [h.ollamaModels, ManifestLibraryPath], name, version]
      = filepath.Join [h.ollamaModels, manifestEntryName name version] :=
    modelPath_eq _ _ _
  have hor : ¬ (name = "" ∨ version = "") := by
    intro e
    rcases e with e | e
    · exact hname e
    · exact hver e
  unfold backupBody
  simp only [hsplit, List.getElem?_cons_zero, List.getElem?_cons_succ, hmp, hor, if_false,
    os.ReadFile, hman, hdec, addToArchive_file fs w _ _ jsonbt hman]


theorem tarRecords_append (a b : List Event) :
    tarRecords (a ++ b) = tarRecords a ++ tarRecords b := by
  induction a with
  | nil => rfl
  | cons e rest ih =>
    cases e <;> simp [tarRecords, ih]

theorem finish_fs (fs : FS) (tr df : List Event) (o : Outcome) : (finish fs tr df o).fs = fs := by
  cases o <;> rfl

theorem finish_outcome (fs : FS) (tr df : List Event) (o : Outcome) :
    (finish fs tr df o).outcome = o := by
  cases o <;> rfl

theorem finish_fatal_trace (fs : FS) (tr df : List Event) (msg : String) :
    (finish fs tr df (.fatal msg)).trace = tr := rfl

theorem finish_returned_trace (fs : FS) (tr df : List Event) :
    (finish fs tr df .returned).trace = tr ++ df := rfl

theorem sourceEntry_file (fs : FS) (root name : String) (c : Bytes)
    (hf : fs (filepath.Join [root, name]) = some (.file c)) :
    sourceEntry fs root name = ⟨name, c.length, c⟩ := by
  simp only [sourceEntry, fileContent, hf]

theorem addLayers_ok (fs : FS) (tw : Writer) (root : String) :
    ∀ layers : List ManifestLayer,
      (∀ l ∈ layers, ∃ c, fs (filepath.Join [root, blobEntryName l.Digest]) = some (.file c)) →
      ∃ evs, addLayers fs tw root layers = (evs, none) ∧
        tarRecords evs
          = entryRecords (layers.map (fun l => sourceEntry fs root (blobEntryName l.Digest)))
  | [], _ => ⟨[], rfl, rfl⟩
  | l :: rest, hl => by
    obtain ⟨c, hc⟩ := hl l (List.mem_cons_self _ _)
    obtain ⟨evs, h1, h2⟩ := addLayers_ok fs tw root rest
      (fun l1 h1 => hl l1 (List.mem_cons_of_mem _ h1))
    have hadd : addLayers fs tw root (l :: rest)
        = ([.osOpen (filepath.Join [root, blobEntryName l.Digest]),
            .write tw (.header (blobEntryName l.Digest) c.length), .write tw (.data c),
            .fileClose (filepath.Join [root, blobEntryName l.Digest])] ++ evs, none) := by
      simp only [addLayers, layerEntryName_eq, addToArchive_file fs tw _ _ c hc, h1]
    refine ⟨_, hadd, ?_⟩
    rw [tarRecords_append, h2, List.map_cons, sourceEntry_file fs root _ c hc]
    rfl

theorem addLayers_missing (fs : FS) (tw : Writer) (root d : String) (post : List String)
    (hd : fs (filepath.Join [root, blobEntryName d]) = none) :
    ∀ (pre : List String) (layers : List ManifestLayer),
      layers.map (fun l => l.Digest) = pre ++ d :: post →
      (∀ d1 ∈ pre, ∃ c, fs (filepath.Join [root, blobEntryName d1]) = some (.file c)) →
      ∃ evs, addLayers fs tw root layers
          = (evs, some ("error adding model digest to archive " ++ blobEntryName d ++ ": "
              ++ ("open " ++ filepath.Join [root, blobEntryName d]
                ++ ": no such file or directory"))) ∧
        TarRecord.trailer ∉ tarRecords evs
  | [], [], hm, _ => by simp at hm
  | [], l :: rest, hm, _ => by
    simp only [List.map_cons, List.nil_append, List.cons.injEq] at hm
    have hd1 : fs (filepath.Join [root, blobEntryName l.Digest]) = none := by rw [hm.1]; exact hd
    have hd2 := hm.1
    subst hd2
    have hadd : addLayers fs tw root (l :: rest)
        = ([.osOpen (filepath.Join [root, blobEntryName l.Digest])],
            some ("error adding model digest to archive " ++ blobEntryName l.Digest ++ ": "
              ++ ("open " ++ filepath.Join [root, blobEntryName l.Digest]
                ++ ": no such file or directory"))) := by
      simp only [addLayers, layerEntryName_eq, addToArchive_missing fs tw _ _ hd1]
    exact ⟨_, hadd, by simp [tarRecords]⟩
  | _ :: _, [], hm, _ => by simp at hm
  | p :: pre, l :: rest, hm, hpre => by
    simp only [List.map_cons, List.cons_append, List.cons.injEq] at hm
    obtain ⟨c, hc⟩ := hpre p (List.mem_cons_self _ _)
    rw [← hm.1] at hc
    obtain ⟨evs, h1, h2⟩ := addLayers_missing fs tw root d post hd pre rest hm.2
      (fun d1 h1 => hpre d1 (List.mem_cons_of_mem _ h1))
    have hadd : addLayers fs tw root (l :: rest)
        = ([.osOpen (filepath.Join [root, blobEntryName l.Digest]),
            .write tw (.header (blobEntryName l.Digest) c.length), .write tw (.data c),
            .fileClose (filepath.Join [root, blobEntryName l.Digest])] ++ evs,
            some ("error adding model digest to archive " ++ blobEntryName d ++ ": "
              ++ ("open " ++ filepath.Join [root, blobEntryName d]
                ++ ": no such file or directory"))) := by
      simp only [addLayers, layerEntryName_eq, addToArchive_file fs tw _ _ c hc, h1]
    refine ⟨_, hadd, ?_⟩
    rw [tarRecords_append]
    simp [tarRecords, h2]

theorem Split_pair (name version : String) (hn : ':' ∉ name.data) (hv : ':' ∉ version.data) :
    strings.Split (name ++ ":" ++ version) ":" = [name, version] := by
  unfold strings.Split
  have : (name ++ ":" ++ version).data = name.data ++ ':' :: version.data := by
    simp [String.data_append]
  rw [this]
  show List.map String.mk (strings.splitScan [':'] _ 0) = _
  rw [splitScan_append, splitScan_noSep _ _ hn, splitScan_noSep _ _ hv]
  rfl

theorem Run_of_openOutput (h : Host) (fs fs1 : FS) (outFile arg : String)
    (hopen : openOutput h fs outFile = .ok fs1) :
    backupCmd.Run h fs outFile arg
      = backupBody h fs1 .stdout (if outFile ≠ "-" then [.osCreate outFile] else [])
          (if outFile ≠ "-" then [.outputClose outFile] else []) arg := by
  unfold openOutput at hopen
  unfold backupCmd.Run
  by_cases hf : outFile = "-"
  · simp only [hf, ne_eq, not_true_eq_false, if_false] at hopen ⊢
    cases hopen
    rfl
  · simp only [ne_eq, hf, not_false_eq_true, if_true] at hopen ⊢
    rw [hopen]

theorem extract_same (root : String) :
    ∀ (entries : List ArchiveEntry) (fs : FS),
      (∀ e ∈ entries, fs (filepath.Join [root, e.path]) = some (.file e.content)) →
      extract root entries fs = fs
  | [], _, _ => rfl
  | e :: rest, fs, he => by
    have h1 : (fun p => if p = filepath.Join [root, e.path] then some (Node.file e.content)
        else fs p) = fs := by
      funext p
      by_cases hp : p = filepath.Join [root, e.path]
      · rw [if_pos hp, hp, he e (List.mem_cons_self _ _)]
      · rw [if_neg hp]
    show extract root rest _ = fs
    rw [h1]
    exact extract_same root rest fs (fun e1 h2 => he e1 (List.mem_cons_of_mem _ h2))


theorem entryRecords_map_file (fs : FS) (root : String) :
    ∀ names : List String,
      (∀ n ∈ names, ∃ c, fs (filepath.Join [root, n]) = some (.file c)) →
      ∀ e ∈ names.map (sourceEntry fs root),
        e.size = e.content.length ∧ fs (filepath.Join [root, e.path]) = some (.file e.content) := by
  intro names hn e he
  obtain ⟨n, hn1, rfl⟩ := List.mem_map.mp he
  obtain ⟨c, hc⟩ := hn n hn1
  rw [sourceEntry_file fs root n c hc]
  exact ⟨rfl, hc⟩

theorem extract_other (root : String) :
    ∀ (entries : List ArchiveEntry) (fs0 : FS) (p : String),
      (∀ e ∈ entries, p ≠ filepath.Join [root, e.path]) → extract root entries fs0 p = fs0 p
  | [], _, _, _ => rfl
  | e :: rest, fs0, p, hp => by
    show extract root rest _ p = fs0 p
    rw [extract_other root rest _ p (fun e1 h1 => hp e1 (List.mem_cons_of_mem _ h1)),
      if_neg (hp e (List.mem_cons_self _ _))]

theorem extract_target (root : String) (src : FS) :
    ∀ (entries : List ArchiveEntry) (fs0 : FS),
      (∀ e ∈ entries, src (filepath.Join [root, e.path]) = some (.file e.content)) →
      ∀ e ∈ entries, extract root entries fs0 (filepath.Join [root, e.path])
        = some (.file e.content)
  | [], _, _, e, he => by cases he
  | e0 :: rest, fs0, hsrc, e, he => by
    show extract root rest _ (filepath.Join [root, e.path]) = _
    by_cases hin : ∃ e1 ∈ rest, filepath.Join [root, e.path] = filepath.Join [root, e1.path]
    · obtain ⟨e1, he1, hp⟩ := hin
      have hc : e1.content = e.content := by
        have h1 := hsrc e1 (List.mem_cons_of_mem _ he1)
        have h2 := hsrc e he
        rw [← hp, h2] at h1
        exact (Node.file.inj (Option.some.inj h1)).symm
      rw [hp, ← hc]
      exact extract_target root src rest _ (fun e2 h2 => hsrc e2 (List.mem_cons_of_mem _ h2))
        e1 he1
    · have hno : ∀ e1 ∈ rest, filepath.Join [root, e.path] ≠ filepath.Join [root, e1.path] :=
        fun e1 he1 hp => hin ⟨e1, he1, hp⟩
      rw [extract_other root rest _ _ hno]
      rcases List.mem_cons.mp he with h1 | h1
      · rw [h1, if_pos rfl]
      · exact absurd ⟨e, h1, rfl⟩ hin

/-- The first absent blob: when a referenced blob is absent under the store
root while the blobs referenced before it are present, the run ends in
`log.Fatalf` with a message naming the path of that blob, and no trailer is
written. -/
theorem Run_first_missing_blob (h : Host) (fs fs1 : FS)
    (outFile name version : String) (jsonbt : Bytes) (m : OllamaModelManifest)
    (pre : List String) (d : String) (post : List String)
    (hname : name ≠ "") (hver : version ≠ "")
    (hn : ':' ∉ name.data) (hv : ':' ∉ version.data)
    (hopen : openOutput h fs outFile = .ok fs1)
    (hman : fs1 (filepath.Join [h.ollamaModels, manifestEntryName name version])
      = some (.file jsonbt))
    (hdec : h.unmarshal jsonbt = .ok m)
    (hdig : referencedDigests m = pre ++ d :: post)
    (hpre : ∀ d1 ∈ pre,
      ∃ c, fs1 (filepath.Join [h.ollamaModels, blobEntryName d1]) = some (.file c))
    (hmiss : fs1 (filepath.Join [h.ollamaModels, blobEntryName d]) = none) :
    (backupCmd.Run h fs outFile (name ++ ":" ++ version)).outcome
      = .fatal ("error adding model digest to archive " ++ blobEntryName d ++ ": "
          ++ ("open " ++ filepath.Join [h.ollamaModels, blobEntryName d]
            ++ ": no such file or directory")) ∧
    TarRecord.trailer ∉
      tarRecords (backupCmd.Run h fs outFile (name ++ ":" ++ version)).trace := by
  have hrun := Run_of_openOutput h fs fs1 outFile (name ++ ":" ++ version) hopen
  rw [backupBody_manifest h fs1 _ _ _ _ name version [] jsonbt m (Split_pair name version hn hv)
    hname hver hman hdec] at hrun
  unfold referencedDigests at hdig
  cases pre with
  | nil =>
    simp only [List.nil_append, List.cons.injEq] at hdig
    have hd := hdig.1
    subst hd
    rw [addToArchive_missing fs1 _ _ _ hmiss] at hrun
    simp only at hrun
    rw [hrun]
    refine ⟨finish_outcome _ _ _ _, ?_⟩
    rw [finish_fatal_trace]
    by_cases hf : outFile = "-" <;> simp [hf, tarRecords]
  | cons p pre1 =>
    simp only [List.cons_append, List.cons.injEq] at hdig
    obtain ⟨c, hc⟩ := hpre p (List.mem_cons_self _ _)
    rw [← hdig.1] at hc
    obtain ⟨evs, hl1, hl2⟩ := addLayers_missing fs1 Writer.stdout h.ollamaModels d post hmiss
      pre1 m.Layers hdig.2 (fun d1 h1 => hpre d1 (List.mem_cons_of_mem _ h1))
    rw [addToArchive_file fs1 _ _ _ c hc] at hrun
    simp only [hl1] at hrun
    rw [hrun]
    refine ⟨finish_outcome _ _ _ _, ?_⟩
    rw [finish_fatal_trace]
    by_cases hf : outFile = "-" <;> simp [hf, tarRecords, tarRecords_append, hl2]


theorem addToArchive_no_trailer (fs : FS) (tw : Writer) (pre filename : String) :
    TarRecord.trailer ∉ tarRecords (addToArchive fs tw pre filename).1 := by
  cases hn : fs (filepath.Join [pre, filename]) with
  | none => simp [addToArchive, hn, tarRecords]
  | some n =>
    cases n with
    | file c => simp [addToArchive, hn, tarRecords]
    | dir es => simp [addToArchive, hn, tarRecords]

theorem addToArchive_ok_file (fs : FS) (tw : Writer) (pre filename : String)
    (hok : (addToArchive fs tw pre filename).2 = none) :
    ∃ c, fs (filepath.Join [pre, filename]) = some (.file c) := by
  cases hn : fs (filepath.Join [pre, filename]) with
  | none => simp [addToArchive, hn] at hok
  | some n =>
    cases n with
    | file c => exact ⟨c, rfl⟩
    | dir es => simp [addToArchive, hn] at hok

theorem addLayers_no_trailer (fs : FS) (tw : Writer) (root : String) :
    ∀ layers : List ManifestLayer,
      TarRecord.trailer ∉ tarRecords (addLayers fs tw root layers).1
  | [] => by simp [addLayers, tarRecords]
  | l :: rest => by
    have h1 := addToArchive_no_trailer fs tw root (layerEntryName l.Digest)
    have h2 := addLayers_no_trailer fs tw root rest
    unfold addLayers
    rcases hadd : addToArchive fs tw root (layerEntryName l.Digest) with ⟨evs, _ | err⟩
    · rw [hadd] at h1
      simp only [tarRecords_append, List.mem_append, not_or]
      exact ⟨h1, h2⟩
    · rw [hadd] at h1
      exact h1

theorem addLayers_fails (fs : FS) (tw : Writer) (root : String) :
    ∀ layers : List ManifestLayer,
      (∃ l ∈ layers, fs (filepath.Join [root, blobEntryName l.Digest]) = none) →
      ∃ msg, (addLayers fs tw root layers).2 = some msg
  | [], hex => by
    obtain ⟨l, hl, _⟩ := hex
    cases hl
  | l :: rest, hex => by
    unfold addLayers
    rcases hadd : addToArchive fs tw root (layerEntryName l.Digest) with ⟨evs, _ | err⟩
    · obtain ⟨c, hc⟩ := addToArchive_ok_file fs tw root (layerEntryName l.Digest)
        (by rw [hadd])
      rw [layerEntryName_eq] at hc
      obtain ⟨l1, hl1, hmiss⟩ := hex
      rcases List.mem_cons.mp hl1 with e | e
      · rw [e, hc] at hmiss
        cases hmiss
      · exact addLayers_fails fs tw root rest ⟨l1, e, hmiss⟩
    · exact ⟨_, rfl⟩

theorem Split_noSep (arg : String) (hc : ':' ∉ arg.data) : strings.Split arg ":" = [arg] := by
  unfold strings.Split
  show List.map String.mk (strings.splitScan [':'] arg.data 0) = _
  rw [splitScan_noSep _ _ hc]
  rfl

theorem Split_leading (version : String) :
    strings.Split (":" ++ version) ":" = "" :: strings.Split version ":" := by
  unfold strings.Split
  have : (":" ++ version).data = ':' :: version.data := by simp [String.data_append]
  rw [this]
  show List.map String.mk (strings.splitScan [':'] _ 0) = _
  rw [splitScan_sep]
  rfl

theorem Split_trailing (name : String) (hn : ':' ∉ name.data) :
    strings.Split (name ++ ":") ":" = [name, ""] := by
  have h1 := Split_pair name "" hn (by simp)
  rw [String.append_empty] at h1
  exact h1

/-- A reference whose split has no second part, or whose first or second part
is empty, ends the body before the manifest is read. -/
theorem backupBody_badref (h : Host) (fs : FS) (w : Writer) (tr df : List Event) (arg : String)
    (hbad : (strings.Split arg ":")[1]? = none ∨ (strings.Split arg ":")[0]? = some "" ∨
      (strings.Split arg ":")[1]? = some "") :
    ∃ o, o ≠ Outcome.returned ∧ backupBody h fs w tr df arg = finish fs tr df o ∧
      ((strings.Split arg ":")[1]? ≠ none →
        o = .fatal "model name and version must be specified") := by
  cases h0 : (strings.Split arg ":")[0]? with
  | none =>
    refine ⟨.panicked "runtime error: index out of range [0] with length 0", by simp, ?_, ?_⟩
    · simp only [backupBody, h0]
    · intro h1
      cases hs : strings.Split arg ":" with
      | nil => rw [hs] at h1; simp at h1
      | cons a rest => rw [hs] at h0; simp at h0
  | some modelName =>
    cases h1 : (strings.Split arg ":")[1]? with
    | none =>
      refine ⟨.panicked "runtime error: index out of range [1] with length 1", by simp, ?_, ?_⟩
      · simp only [backupBody, h0, h1]
      · simp
    | some modelVersion =>
      have hor : modelName = "" ∨ modelVersion = "" := by
        rcases hbad with hb | hb | hb
        · rw [h1] at hb; cases hb
        · rw [h0] at hb; left; exact Option.some.inj hb
        · rw [h1] at hb; right; exact Option.some.inj hb
      refine ⟨.fatal "model name and version must be specified", by simp, ?_, ?_⟩
      · simp only [backupBody, h0, h1, hor, if_true]
      · simp

theorem finish_trace_sub (fs : FS) (tr df : List Event) (o : Outcome) :
    ∀ e ∈ (finish fs tr df o).trace, e ∈ tr ∨ e ∈ df := by
  intro e he
  cases o with
  | fatal msg => exact Or.inl he
  | returned => exact List.mem_append.mp he
  | panicked msg => exact List.mem_append.mp he

/-- A run on a reference as in `backupBody_badref`: it does not return, and
its only I/O is the creation and the deferred close of the output file. -/
theorem Run_badref (h : Host) (fs : FS) (outFile arg : String)
    (hbad : (strings.Split arg ":")[1]? = none ∨ (strings.Split arg ":")[0]? = some "" ∨
      (strings.Split arg ":")[1]? = some "") :
    (backupCmd.Run h fs outFile arg).outcome ≠ .returned ∧
    (∀ e ∈ (backupCmd.Run h fs outFile arg).trace,
      outFile ≠ "-" ∧ (e = .osCreate outFile ∨ e = .outputClose outFile)) ∧
    (outFile ≠ "-" → (backupCmd.Run h fs outFile arg).trace.head? = some (.osCreate outFile)) ∧
    (∀ fs1, openOutput h fs outFile = .ok fs1 → (strings.Split arg ":")[1]? ≠ none →
      (backupCmd.Run h fs outFile arg).outcome
        = .fatal "model name and version must be specified") := by
  unfold backupCmd.Run openOutput
  by_cases hf : outFile = "-"
  · obtain ⟨o, ho, hb, hm⟩ := backupBody_badref h fs Writer.stdout [] [] arg hbad
    simp only [hf, ne_eq, not_true_eq_false, if_false, hb]
    refine ⟨by rw [finish_outcome]; exact ho, ?_, by simp, ?_⟩
    · intro e he
      rcases finish_trace_sub _ _ _ _ e he with h1 | h1 <;> simp at h1
    · intro fs1 _ h1
      rw [finish_outcome]
      exact hm h1
  · simp only [ne_eq, hf, not_false_eq_true, if_true]
    cases hcr : os.Create h fs outFile with
    | error err =>
      refine ⟨by simp [finish], ?_, by simp [finish], by simp⟩
      intro e he
      simp only [finish, List.mem_singleton] at he
      exact ⟨trivial, Or.inl he⟩
    | ok fs1 =>
      obtain ⟨o, ho, hb, hm⟩ := backupBody_badref h fs1 Writer.stdout [.osCreate outFile]
        [.outputClose outFile] arg hbad
      simp only [hb]
      refine ⟨by rw [finish_outcome]; exact ho, ?_, ?_, ?_⟩
      · intro e he
        rcases finish_trace_sub _ _ _ _ e he with h1 | h1
        · exact ⟨trivial, Or.inl (List.mem_singleton.mp h1)⟩
        · exact ⟨trivial, Or.inr (List.mem_singleton.mp h1)⟩
      · intro _
        cases o <;> rfl
      · intro fs2 _ h1
        rw [finish_outcome]
        exact hm h1

theorem Run_of_openOutput_error (h : Host) (fs : FS) (outFile arg err : String)
    (hopen : openOutput h fs outFile = .error err) :
    backupCmd.Run h fs outFile arg = finish fs [.osCreate outFile] [] (.fatal err) := by
  unfold openOutput at hopen
  unfold backupCmd.Run
  by_cases hf : outFile = "-"
  · simp only [hf, ne_eq, not_true_eq_false, if_false] at hopen
    cases hopen
  · simp only [ne_eq, hf, not_false_eq_true, if_true] at hopen ⊢
    rw [hopen]

theorem tarRecords_of_no_write (tr : List Event)
    (hno : ∀ e ∈ tr, ∀ w r, e ≠ Event.write w r) : tarRecords tr = [] := by
  induction tr with
  | nil => rfl
  | cons e rest ih =>
    have h1 := hno e (List.mem_cons_self _ _)
    have h2 := ih (fun e1 he1 => hno e1 (List.mem_cons_of_mem _ he1))
    cases e with
    | write w r => exact absurd rfl (h1 w r)
    | osCreate p => exact h2
    | osReadFile p => exact h2
    | osOpen p => exact h2
    | fileClose p => exact h2
    | outputClose p => exact h2


theorem Split_second_of_colon (arg : String) (hc : ':' ∈ arg.data) :
    (strings.Split arg ":")[1]? ≠ none := by
  obtain ⟨x, y, hxy⟩ := List.append_of_mem hc
  unfold strings.Split
  show (List.map String.mk (strings.splitScan [':'] arg.data 0))[1]? ≠ none
  rw [hxy, splitScan_append]
  cases hx : strings.splitScan [':'] x 0 with
  | nil => exact absurd hx (splitScan_ne_nil _ _)
  | cons a as =>
    cases hy : strings.splitScan [':'] y 0 with
    | nil => exact absurd hy (splitScan_ne_nil _ _)
    | cons b bs =>
      cases as with
      | nil => simp
      | cons a2 as2 => simp

/-! ## The list command: lemmas -/

theorem mapAppend_new (k v : String) :
    ∀ m : List (String × List String), k ∉ m.map (fun nv => nv.1) →
      mapAppend m k v = m ++ [(k, [v])]
  | [], _ => rfl
  | (k1, vs) :: rest, hk => by
    simp only [List.map_cons, List.mem_cons, not_or] at hk
    have hne : ¬ k1 = k := fun e => hk.1 e.symm
    simp only [mapAppend, hne, if_false, List.cons_append, mapAppend_new k v rest hk.2]

theorem mapAppend_last (k v : String) (vs : List String) :
    ∀ m : List (String × List String), k ∉ m.map (fun nv => nv.1) →
      mapAppend (m ++ [(k, vs)]) k v = m ++ [(k, vs ++ [v])]
  | [], _ => by simp [mapAppend]
  | (k1, vs1) :: rest, hk => by
    simp only [List.map_cons, List.mem_cons, not_or] at hk
    have hne : ¬ k1 = k := fun e => hk.1 e.symm
    have ih := mapAppend_last k v vs rest hk.2
    simp only [List.cons_append, mapAppend, hne, if_false, List.cons.injEq, true_and]
    exact ih

theorem addVersions_last (k : String) (m : List (String × List String))
    (hk : k ∉ m.map (fun nv => nv.1)) :
    ∀ (vers : List DirEntry) (vs : List String),
      addVersions (m ++ [(k, vs)]) k vers = m ++ [(k, vs ++ nonDirNames vers)]
  | [], vs => by simp [addVersions, nonDirNames]
  | ver :: rest, vs => by
    cases hd : ver.IsDir with
    | true =>
      simp only [addVersions, hd, Bool.not_true, Bool.false_eq_true, if_false]
      rw [addVersions_last k m hk rest vs]
      simp [nonDirNames, hd]
    | false =>
      simp only [addVersions, hd, Bool.not_false, if_true]
      rw [mapAppend_last k _ vs m hk, addVersions_last k m hk rest (vs ++ [ver.Name])]
      simp [nonDirNames, hd]

theorem addVersions_new (k : String) (m : List (String × List String))
    (hk : k ∉ m.map (fun nv => nv.1)) :
    ∀ vers : List DirEntry,
      addVersions m k vers
        = if nonDirNames vers ≠ [] then m ++ [(k, nonDirNames vers)] else m
  | [] => by simp [addVersions, nonDirNames]
  | ver :: rest => by
    cases hd : ver.IsDir with
    | true =>
      simp only [addVersions, hd, Bool.not_true, Bool.false_eq_true, if_false]
      rw [addVersions_new k m hk rest]
      simp [nonDirNames, hd]
    | false =>
      simp only [addVersions, hd, Bool.not_false, if_true]
      rw [mapAppend_new k _ m hk, addVersions_last k m hk rest [ver.Name]]
      simp [nonDirNames, hd]

theorem expectedReport_keys (fs : FS) (lib : String) (dir : List DirEntry) :
    ∀ k ∈ (expectedReport fs lib dir).map (fun nv => nv.1), k ∈ dir.map (fun e => e.Name) := by
  intro k hk
  obtain ⟨nv, hnv, rfl⟩ := List.mem_map.mp hk
  unfold expectedReport at hnv
  obtain ⟨e, he, h1⟩ := List.mem_filterMap.mp hnv
  split at h1
  · cases h1
    exact List.mem_map.mpr ⟨e, he, rfl⟩
  · cases h1

theorem scanLibrary_eq (fs : FS) (lib : String) :
    ∀ (dir : List DirEntry) (m : List (String × List String)),
      (dir.map (fun e => e.Name)).Nodup →
      (∀ e ∈ dir, e.Name ∉ m.map (fun nv => nv.1)) →
      (∀ e ∈ dir, e.IsDir = true → ∃ vers, os.ReadDir fs (filepath.Join [lib, e.Name]) = .ok vers) →
      scanLibrary fs lib m dir = .ok (m ++ expectedReport fs lib dir)
  | [], m, _, _, _ => by simp [scanLibrary, expectedReport]
  | e :: rest, m, hnd, hm, hsub => by
    simp only [List.map_cons, List.nodup_cons] at hnd
    have hrest := fun m1 hm1 => scanLibrary_eq fs lib rest m1 hnd.2 hm1
      (fun e1 he1 => hsub e1 (List.mem_cons_of_mem _ he1))
    cases hd : e.IsDir with
    | false =>
      simp only [scanLibrary, hd, Bool.false_eq_true, if_false]
      rw [hrest m (fun e1 he1 => hm e1 (List.mem_cons_of_mem _ he1))]
      simp [expectedReport, hd]
    | true =>
      obtain ⟨vers, hv⟩ := hsub e (List.mem_cons_self _ _) hd
      have hk := hm e (List.mem_cons_self _ _)
      have hl : listing fs (filepath.Join [lib, e.Name]) = vers := by
        simp only [listing, hv]
      simp only [scanLibrary, hd, if_true, hv]
      rw [addVersions_new e.Name m hk vers]
      by_cases hne : nonDirNames vers = []
      · simp only [hne, ne_eq, not_true_eq_false, if_false]
        rw [hrest m (fun e1 he1 => hm e1 (List.mem_cons_of_mem _ he1))]
        simp [expectedReport, hd, hl, hne]
      · simp only [ne_eq, hne, not_false_eq_true, if_true]
        rw [hrest _ (by
          intro e1 he1
          simp only [List.map_append, List.map_cons, List.map_nil, List.mem_append,
            List.mem_singleton, not_or]
          refine ⟨hm e1 (List.mem_cons_of_mem _ he1), ?_⟩
          intro e2
          exact hnd.1 (List.mem_map.mpr ⟨e1, he1, e2⟩))]
        simp [expectedReport, hd, hl, hne]

theorem expectedReport_nodup (fs : FS) (lib : String) :
    ∀ dir : List DirEntry, (dir.map (fun e => e.Name)).Nodup →
      ((expectedReport fs lib dir).map (fun nv => nv.1)).Nodup
  | [], _ => by simp [expectedReport]
  | e :: rest, hnd => by
    simp only [List.map_cons, List.nodup_cons] at hnd
    have ih := expectedReport_nodup fs lib rest hnd.2
    have hk : e.Name ∉ (expectedReport fs lib rest).map (fun nv => nv.1) :=
      fun hmem => hnd.1 (expectedReport_keys fs lib rest _ hmem)
    by_cases hc : e.IsDir = true ∧ nonDirNames (listing fs (filepath.Join [lib, e.Name])) ≠ []
    · have : expectedReport fs lib (e :: rest)
          = (e.Name, nonDirNames (listing fs (filepath.Join [lib, e.Name])))
            :: expectedReport fs lib rest := by
        have hc2 := hc.2
        simp only [expectedReport, List.filterMap_cons, hc.1, true_and]
        rw [if_pos hc2]
      rw [this, List.map_cons, List.nodup_cons]
      exact ⟨hk, ih⟩
    · have : expectedReport fs lib (e :: rest) = expectedReport fs lib rest := by
        simp only [expectedReport, List.filterMap_cons, hc, if_false]
      rw [this]
      exact ih


/-! ## The claims on the digest codec -/

/-- C7: `shaString` is a total function that keeps the length of its
argument, has `-` at every position where the argument has `:` and the
character of the argument at every other position, and so contains no `:`. -/
theorem shaString_replaces_every_colon (s : String) :
    (shaString s).length = s.length ∧
    (∀ i : Nat, (shaString s).data[i]?
      = (s.data[i]?).map (fun c => if c = ':' then '-' else c)) ∧
    ':' ∉ (shaString s).data := by
  refine ⟨?_, ?_, ?_⟩
  · show (shaString s).data.length = s.data.length
    rw [shaString_data, List.length_map]
  · intro i
    rw [shaString_data, List.getElem?_map]
    rfl
  · rw [shaString_data]
    intro hmem
    obtain ⟨c, _, hc⟩ := List.mem_map.mp hmem
    exact dashColon_ne_colon c hc

/-- C8 (as stated, refuted): two references with exactly one `:` each,
`sha256:aa-bb` and `sha256-aa:bb`, are rewritten to the same file name. -/
theorem shaString_not_injective_on_one_colon :
    ¬ ∀ a b : String, a.data.count ':' = 1 → b.data.count ':' = 1 →
      shaString a = shaString b → a = b := by
  intro h
  exact absurd (h "sha256:aa-bb" "sha256-aa:bb" (by decide) (by decide) (by decide))
    (by decide)

/-- C8 (amended): on references with exactly one `:` and no `-`, `shaString`
is injective. -/
theorem shaString_injective_without_dash (a b : String)
    (ha : a.data.count ':' = 1) (hb : b.data.count ':' = 1)
    (hda : '-' ∉ a.data) (hdb : '-' ∉ b.data)
    (h : shaString a = shaString b) : a = b := by
  have _ := ha
  have _ := hb
  apply String.ext
  apply map_dashColon_inj _ _ hda hdb
  rw [← shaString_data, ← shaString_data, h]

/-- Two spellings of the reference `sha256:aaaa`. -/
theorem shaString_injective_without_dash_witness :
    shaString "sha256:aaaa" = shaString ("sha256" ++ ":aaaa") ∧
    "sha256:aaaa" = "sha256" ++ ":aaaa" :=
  ⟨by decide, shaString_injective_without_dash "sha256:aaaa" ("sha256" ++ ":aaaa")
    (by decide) (by decide) (by decide) (by decide) (by decide)⟩

/-- C10: `shaString` is idempotent, and so the path that the layer loop
archives, where the digest is rewritten twice, is the path with the digest
rewritten once, which the config blob uses and the error message of a layer
names. -/
theorem shaString_idempotent_layer_path (s : String) :
    shaString (shaString s) = shaString s ∧ layerEntryName s = blobEntryName s :=
  ⟨shaString_idem s, layerEntryName_eq s⟩

/-! ## The claims on the backup command -/

/-- C2: for a reference `name:version` whose manifest file, config blob and
layer blobs are all regular files under the store root, the backup command
returns normally and its tar stream is exactly the finalized archive of N+2
entries: the manifest under its library path, the config blob, then the layers
in manifest order, each under `blobs/` with the digest rewritten; every entry
declares the length of, and carries the content of, its source file, so that
unpacking the entries at the store root leaves the store as it is, and
unpacking them over any file system puts the bytes of each source file at its
path under the root. -/
theorem backup_emits_manifest_config_layers (h : Host) (fs fs1 : FS)
    (outFile name version : String) (jsonbt : Bytes) (m : OllamaModelManifest)
    (hname : name ≠ "") (hver : version ≠ "")
    (hn : ':' ∉ name.data) (hv : ':' ∉ version.data)
    (hopen : openOutput h fs outFile = .ok fs1)
    (hman : fs1 (filepath.Join [h.ollamaModels, manifestEntryName name version])
      = some (.file jsonbt))
    (hdec : h.unmarshal jsonbt = .ok m)
    (hblobs : ∀ d ∈ referencedDigests m,
      ∃ c, fs1 (filepath.Join [h.ollamaModels, blobEntryName d]) = some (.file c)) :
    (backupCmd.Run h fs outFile (name ++ ":" ++ version)).outcome = .returned ∧
    tarRecords (backupCmd.Run h fs outFile (name ++ ":" ++ version)).trace
      = archiveRecords (expectedEntries fs1 h.ollamaModels name version m) ∧
    (expectedEntries fs1 h.ollamaModels name version m).length = m.Layers.length + 2 ∧
    (expectedEntries fs1 h.ollamaModels name version m).map (fun e => e.path)
      = manifestEntryName name version :: blobEntryName m.Config.Digest
          :: m.Layers.map (fun l => blobEntryName l.Digest) ∧
    (∀ e ∈ expectedEntries fs1 h.ollamaModels name version m,
      e.size = e.content.length ∧
      fs1 (filepath.Join [h.ollamaModels, e.path]) = some (.file e.content)) ∧
    (backupCmd.Run h fs outFile (name ++ ":" ++ version)).fs = fs1 ∧
    extract h.ollamaModels (expectedEntries fs1 h.ollamaModels name version m)
        (backupCmd.Run h fs outFile (name ++ ":" ++ version)).fs
      = (backupCmd.Run h fs outFile (name ++ ":" ++ version)).fs ∧
    (∀ (fs0 : FS), ∀ e ∈ expectedEntries fs1 h.ollamaModels name version m,
      extract h.ollamaModels (expectedEntries fs1 h.ollamaModels name version m) fs0
          (filepath.Join [h.ollamaModels, e.path])
        = fs1 (filepath.Join [h.ollamaModels, e.path])) := by
  obtain ⟨c, hc⟩ := hblobs m.Config.Digest (List.mem_cons_self _ _)
  obtain ⟨evs, hl1, hl2⟩ := addLayers_ok fs1 Writer.stdout h.ollamaModels m.Layers
    (fun l hl => hblobs l.Digest
      (List.mem_cons_of_mem _ (List.mem_map.mpr ⟨l, hl, rfl⟩)))
  have hall : ∀ e ∈ expectedEntries fs1 h.ollamaModels name version m,
      e.size = e.content.length ∧
      fs1 (filepath.Join [h.ollamaModels, e.path]) = some (.file e.content) := by
    apply entryRecords_map_file
    intro n hn1
    rcases List.mem_cons.mp hn1 with h1 | h1
    · exact ⟨jsonbt, by rw [h1]; exact hman⟩
    · obtain ⟨d, hd, rfl⟩ := List.mem_map.mp h1
      exact hblobs d hd
  have hrun := Run_of_openOutput h fs fs1 outFile (name ++ ":" ++ version) hopen
  rw [backupBody_manifest h fs1 _ _ _ _ name version [] jsonbt m (Split_pair name version hn hv)
    hname hver hman hdec, addToArchive_file fs1 _ _ _ c hc] at hrun
  simp only [hl1] at hrun
  rw [hrun]
  refine ⟨finish_outcome _ _ _ _, ?_, ?_, ?_, hall, finish_fs _ _ _ _, ?_, ?_⟩
  · rw [finish_returned_trace]
    simp only [tarRecords_append, hl2]
    unfold archiveRecords expectedEntries referencedDigests
    rw [List.map_cons, List.map_cons, List.map_cons, sourceEntry_file fs1 _ _ jsonbt hman,
      sourceEntry_file fs1 _ _ c hc, List.map_map, List.map_map]
    by_cases hf : outFile = "-" <;> simp [hf, tarRecords, entryRecords] <;> rfl
  · simp [expectedEntries, referencedDigests]
  · simp [expectedEntries, referencedDigests, sourceEntry, Function.comp]
  · rw [finish_fs]
    exact extract_same _ _ _ (fun e he => (hall e he).2)
  · intro fs0 e he
    rw [(hall e he).2]
    exact extract_target _ fs1 _ fs0 (fun e1 he1 => (hall e1 he1).2) e he

/-- The sample store: `llama3:8b` with config `sha256:aaaa` and one layer
`sha256:bbbb` gives the three entries of the scenario, then the trailer. -/
theorem backup_emits_manifest_config_layers_witness :
    (backupCmd.Run sampleHost sampleFS "-" "llama3:8b").outcome = .returned ∧
    tarRecords (backupCmd.Run sampleHost sampleFS "-" "llama3:8b").trace
      = [.header "manifests/registry.ollama.ai/library/llama3/8b" 2, .data [123, 125],
          .header "blobs/sha256-aaaa" 2, .data [10, 11],
          .header "blobs/sha256-bbbb" 3, .data [20, 21, 22], .trailer] :=
  have w := backup_emits_manifest_config_layers sampleHost sampleFS sampleFS "-" "llama3" "8b"
    [123, 125] sampleManifest (by decide) (by decide) (by decide) (by decide) rfl rfl rfl
    (by
      intro d hd
      simp only [referencedDigests, sampleManifest, List.map_cons, List.map_nil,
        List.mem_cons, List.mem_singleton, List.not_mem_nil, or_false] at hd
      rcases hd with rfl | rfl
      · exact ⟨[10, 11], rfl⟩
      · exact ⟨[20, 21, 22], rfl⟩)
  ⟨w.1, w.2.1⟩

/-- C3 (as stated, refuted): the manifest of `nocfg:1` references the layer
`sha256:cccc`, whose blob `blobs/sha256-cccc` is absent, and has an empty
config digest, whose blob path `blobs` is a directory.  The run fails at the
config blob, with a read error that names `blobs` and not the absent blob. -/
theorem backup_missing_blob_error_names_directory :
    "sha256:cccc" ∈ referencedDigests nocfgManifest ∧
    blobEntryName "sha256:cccc" = "blobs/sha256-cccc" ∧
    nocfgFS (filepath.Join [nocfgHost.ollamaModels, blobEntryName "sha256:cccc"]) = none ∧
    nocfgFS (filepath.Join [nocfgHost.ollamaModels, blobEntryName nocfgManifest.Config.Digest])
      = some (.dir []) ∧
    (backupCmd.Run nocfgHost nocfgFS "-" "nocfg:1").outcome
      = .fatal "error adding model digest to archive blobs: read /m/blobs: is a directory" := by
  decide

/-- C3 (amended): when at least one referenced blob (the config blob or a
layer blob) is absent under the store root, the backup command ends in
`log.Fatalf` and no trailer is written, so the archive is not finalized; the
message names the path of the absent blob when that blob is the first absent
one in the order config, layers, and the blobs referenced before it are
regular files. -/
theorem backup_missing_blob_not_finalized (h : Host) (fs fs1 : FS)
    (outFile name version : String) (jsonbt : Bytes) (m : OllamaModelManifest)
    (hname : name ≠ "") (hver : version ≠ "")
    (hn : ':' ∉ name.data) (hv : ':' ∉ version.data)
    (hopen : openOutput h fs outFile = .ok fs1)
    (hman : fs1 (filepath.Join [h.ollamaModels, manifestEntryName name version])
      = some (.file jsonbt))
    (hdec : h.unmarshal jsonbt = .ok m)
    (hmissing : ∃ d ∈ referencedDigests m,
      fs1 (filepath.Join [h.ollamaModels, blobEntryName d]) = none) :
    (∃ msg, (backupCmd.Run h fs outFile (name ++ ":" ++ version)).outcome = .fatal msg) ∧
    TarRecord.trailer ∉
      tarRecords (backupCmd.Run h fs outFile (name ++ ":" ++ version)).trace ∧
    (∀ (pre : List String) (d : String) (post : List String),
      referencedDigests m = pre ++ d :: post →
      (∀ d1 ∈ pre,
        ∃ c, fs1 (filepath.Join [h.ollamaModels, blobEntryName d1]) = some (.file c)) →
      fs1 (filepath.Join [h.ollamaModels, blobEntryName d]) = none →
      (backupCmd.Run h fs outFile (name ++ ":" ++ version)).outcome
        = .fatal ("error adding model digest to archive " ++ blobEntryName d ++ ": "
            ++ ("open " ++ filepath.Join [h.ollamaModels, blobEntryName d]
              ++ ": no such file or directory"))) := by
  have hrun := Run_of_openOutput h fs fs1 outFile (name ++ ":" ++ version) hopen
  rw [backupBody_manifest h fs1 _ _ _ _ name version [] jsonbt m (Split_pair name version hn hv)
    hname hver hman hdec] at hrun
  have hfirst := fun pre d post hdig hpre hmiss =>
    (Run_first_missing_blob h fs fs1 outFile name version jsonbt m pre d post hname hver hn hv
      hopen hman hdec hdig hpre hmiss).1
  have hpfx : TarRecord.trailer ∉ tarRecords
      ((if outFile ≠ "-" then [Event.osCreate outFile] else [])
        ++ [Event.osReadFile (filepath.Join [h.ollamaModels, manifestEntryName name version])]
        ++ [Event.osOpen (filepath.Join [h.ollamaModels, manifestEntryName name version]),
            Event.write Writer.stdout
              (TarRecord.header (manifestEntryName name version) jsonbt.length),
            Event.write Writer.stdout (TarRecord.data jsonbt),
            Event.fileClose
              (filepath.Join [h.ollamaModels, manifestEntryName name version])]) := by
    by_cases hf : outFile = "-" <;> simp [hf, tarRecords]
  have hcfg0 := addToArchive_no_trailer fs1 Writer.stdout h.ollamaModels
    (blobEntryName m.Config.Digest)
  rcases hcfg : addToArchive fs1 Writer.stdout h.ollamaModels (blobEntryName m.Config.Digest)
    with ⟨evs, _ | err⟩
  · obtain ⟨c, hc⟩ := addToArchive_ok_file fs1 Writer.stdout h.ollamaModels
      (blobEntryName m.Config.Digest) (by rw [hcfg])
    have hlay : ∃ l ∈ m.Layers,
        fs1 (filepath.Join [h.ollamaModels, blobEntryName l.Digest]) = none := by
      obtain ⟨d, hd, hmiss⟩ := hmissing
      rcases List.mem_cons.mp hd with e | e
      · rw [e, hc] at hmiss
        cases hmiss
      · obtain ⟨l, hl, rfl⟩ := List.mem_map.mp e
        exact ⟨l, hl, hmiss⟩
    obtain ⟨msg, hmsg⟩ := addLayers_fails fs1 Writer.stdout h.ollamaModels m.Layers hlay
    have hl0 := addLayers_no_trailer fs1 Writer.stdout h.ollamaModels m.Layers
    rcases hL : addLayers fs1 Writer.stdout h.ollamaModels m.Layers with ⟨evs2, r⟩
    rw [hL] at hmsg hl0
    simp only at hmsg
    subst hmsg
    rw [hcfg] at hrun hcfg0
    simp only [hL] at hrun
    refine ⟨⟨msg, by rw [hrun, finish_outcome]⟩, ?_, hfirst⟩
    rw [hrun, finish_fatal_trace, tarRecords_append, tarRecords_append, List.mem_append,
      List.mem_append]
    rintro ((h1 | h1) | h1)
    · exact hpfx h1
    · exact hcfg0 h1
    · exact hl0 h1
  · rw [hcfg] at hrun hcfg0
    simp only at hrun
    refine ⟨⟨_, by rw [hrun, finish_outcome]⟩, ?_, hfirst⟩
    rw [hrun, finish_fatal_trace, tarRecords_append, List.mem_append]
    rintro (h1 | h1)
    · exact hpfx h1
    · exact hcfg0 h1

/-- The sample store: the layer blob of `broken:1` is absent, its config blob
is present. -/
theorem backup_missing_blob_not_finalized_witness :
    (backupCmd.Run sampleHost sampleFS "-" "broken:1").outcome
      = .fatal ("error adding model digest to archive blobs/sha256-cccc: "
          ++ "open /m/blobs/sha256-cccc: no such file or directory") ∧
    TarRecord.trailer ∉ tarRecords (backupCmd.Run sampleHost sampleFS "-" "broken:1").trace :=
  have w := backup_missing_blob_not_finalized sampleHost sampleFS sampleFS "-" "broken" "1"
    [123, 32, 125] brokenManifest (by decide) (by decide) (by decide) (by decide) rfl rfl rfl
    ⟨"sha256:cccc", by decide, rfl⟩
  ⟨w.2.2 ["sha256:aaaa"] "sha256:cccc" [] rfl
    (by
      intro d hd
      simp only [List.mem_singleton] at hd
      subst hd
      exact ⟨[10, 11], rfl⟩)
    rfl, w.2.1⟩

/-- C1 (the code departs from the claim): with the destination `out.tar` the
run returns normally, sends no record to the file and the whole archive
(headers, contents, trailer) to standard output, and leaves `out.tar`
empty. -/
theorem backup_file_destination_archive_on_stdout :
    (backupCmd.Run sampleHost sampleFS "out.tar" "llama3:8b").outcome = .returned ∧
    writesTo (.file "out.tar") (backupCmd.Run sampleHost sampleFS "out.tar" "llama3:8b").trace
      = [] ∧
    writesTo .stdout (backupCmd.Run sampleHost sampleFS "out.tar" "llama3:8b").trace
      = [.header "manifests/registry.ollama.ai/library/llama3/8b" 2, .data [123, 125],
          .header "blobs/sha256-aaaa" 2, .data [10, 11],
          .header "blobs/sha256-bbbb" 3, .data [20, 21, 22], .trailer] ∧
    (backupCmd.Run sampleHost sampleFS "out.tar" "llama3:8b").fs "out.tar"
      = some (.file []) := by
  decide

/-- C4 (as stated, refuted): the reference `llama3:8b:extra`, with more than
one colon, is not rejected: the manifest of `llama3:8b` is read and the whole
archive is written. -/
theorem backup_accepts_reference_with_two_colons :
    (backupCmd.Run sampleHost sampleFS "-" "llama3:8b:extra").outcome = .returned ∧
    Event.osReadFile "/m/manifests/registry.ollama.ai/library/llama3/8b"
      ∈ (backupCmd.Run sampleHost sampleFS "-" "llama3:8b:extra").trace ∧
    tarRecords (backupCmd.Run sampleHost sampleFS "-" "llama3:8b:extra").trace
      = [.header "manifests/registry.ollama.ai/library/llama3/8b" 2, .data [123, 125],
          .header "blobs/sha256-aaaa" 2, .data [10, 11],
          .header "blobs/sha256-bbbb" 3, .data [20, 21, 22], .trailer] := by
  decide

/-- C4 (amended): a reference that has a colon and whose first or second
colon-separated part is empty makes the backup command end in `log.Fatal`
without reading a manifest, opening a source file or writing a tar record;
once the output is opened, the report is
`model name and version must be specified`. -/
theorem backup_rejects_empty_name_or_version (h : Host) (fs : FS) (outFile arg : String)
    (hcolon : ':' ∈ arg.data)
    (hbad : (strings.Split arg ":")[0]? = some "" ∨ (strings.Split arg ":")[1]? = some "") :
    (∃ msg, (backupCmd.Run h fs outFile arg).outcome = .fatal msg) ∧
    (∀ p, Event.osReadFile p ∉ (backupCmd.Run h fs outFile arg).trace) ∧
    (∀ p, Event.osOpen p ∉ (backupCmd.Run h fs outFile arg).trace) ∧
    tarRecords (backupCmd.Run h fs outFile arg).trace = [] ∧
    (∀ fs1, openOutput h fs outFile = .ok fs1 →
      (backupCmd.Run h fs outFile arg).outcome
        = .fatal "model name and version must be specified") := by
  have hsecond := Split_second_of_colon arg hcolon
  obtain ⟨_, h2, _, h4⟩ := Run_badref h fs outFile arg (Or.inr hbad)
  refine ⟨?_, ?_, ?_, ?_, ?_⟩
  · cases hop : openOutput h fs outFile with
    | error err =>
      exact ⟨err, by rw [Run_of_openOutput_error h fs outFile arg err hop, finish_outcome]⟩
    | ok fs1 => exact ⟨_, h4 fs1 hop hsecond⟩
  · intro p hp
    rcases (h2 _ hp).2 with e | e <;> cases e
  · intro p hp
    rcases (h2 _ hp).2 with e | e <;> cases e
  · apply tarRecords_of_no_write
    intro e he w r hw
    rcases (h2 _ he).2 with e1 | e1 <;> rw [e1] at hw <;> cases hw
  · intro fs1 hopen
    exact h4 fs1 hopen hsecond

/-- The reference `llama3:` has an empty version. -/
theorem backup_rejects_empty_name_or_version_witness :
    tarRecords (backupCmd.Run sampleHost sampleFS "-" "llama3:").trace = [] ∧
    (backupCmd.Run sampleHost sampleFS "-" "llama3:").outcome
      = .fatal "model name and version must be specified" :=
  have w := backup_rejects_empty_name_or_version sampleHost sampleFS "-" "llama3:"
    (by decide) (Or.inr (by decide))
  ⟨w.2.2.2.1, w.2.2.2.2 sampleFS rfl⟩

/-- C5 (as stated, refuted): with the destination `old.tar`, an existing file
of four bytes, and the reference `badref`, the run creates the destination
before it fails, and the file is left empty. -/
theorem backup_bad_reference_truncates_destination :
    sampleFS "old.tar" = some (.file [1, 2, 3, 4]) ∧
    (backupCmd.Run sampleHost sampleFS "old.tar" "badref").outcome ≠ .returned ∧
    (backupCmd.Run sampleHost sampleFS "old.tar" "badref").trace
      = [.osCreate "old.tar", .outputClose "old.tar"] ∧
    (backupCmd.Run sampleHost sampleFS "old.tar" "badref").fs "old.tar"
      = some (.file []) := by
  decide

/-- C5 (amended): for a reference without colon, with an empty name or with
an empty version, the backup command fails; with the destination `-` it makes
no I/O call at all; with a file destination its first call creates that file,
and its only calls are that creation and the close of that file; in both cases
no store file is opened or read and no tar record is written. -/
theorem backup_bad_reference_touches_only_destination (h : Host) (fs : FS)
    (outFile arg : String)
    (hbad : ':' ∉ arg.data ∨ (∃ version, arg = ":" ++ version) ∨
      (∃ name, ':' ∉ name.data ∧ arg = name ++ ":")) :
    (backupCmd.Run h fs outFile arg).outcome ≠ .returned ∧
    (outFile = "-" → (backupCmd.Run h fs outFile arg).trace = []) ∧
    (outFile ≠ "-" →
      (backupCmd.Run h fs outFile arg).trace.head? = some (.osCreate outFile)) ∧
    (∀ e ∈ (backupCmd.Run h fs outFile arg).trace,
      e = .osCreate outFile ∨ e = .outputClose outFile) ∧
    tarRecords (backupCmd.Run h fs outFile arg).trace = [] := by
  have hbad2 : (strings.Split arg ":")[1]? = none ∨ (strings.Split arg ":")[0]? = some "" ∨
      (strings.Split arg ":")[1]? = some "" := by
    rcases hbad with hb | ⟨version, hb⟩ | ⟨name, hn, hb⟩
    · left
      rw [Split_noSep arg hb]
      rfl
    · right; left
      rw [hb, Split_leading]
      exact List.getElem?_cons_zero
    · right; right
      rw [hb, Split_trailing name hn]
      rfl
  obtain ⟨h1, h2, h3, _⟩ := Run_badref h fs outFile arg hbad2
  refine ⟨h1, ?_, h3, fun e he => (h2 e he).2, ?_⟩
  · intro hf
    cases ht : (backupCmd.Run h fs outFile arg).trace with
    | nil => rfl
    | cons e rest =>
      exact absurd hf (h2 e (by rw [ht]; exact List.mem_cons_self _ _)).1
  · apply tarRecords_of_no_write
    intro e he w r hw
    rcases (h2 _ he).2 with e1 | e1 <;> rw [e1] at hw <;> cases hw

/-- The reference `badref` with the destination `-`: no I/O call at all. -/
theorem backup_bad_reference_touches_only_destination_witness :
    (backupCmd.Run sampleHost sampleFS "-" "badref").outcome ≠ .returned ∧
    (backupCmd.Run sampleHost sampleFS "-" "badref").trace = [] :=
  have w := backup_bad_reference_touches_only_destination sampleHost sampleFS "-" "badref"
    (Or.inl (by decide))
  ⟨w.1, w.2.1 rfl⟩

/-- C6 (the code departs from the claim): with the destination `out.tar`, the
runs on the reference `llama3:` (empty version) and on `broken:1` (absent layer
blob) create the file and end in `log.Fatal`; the deferred close of the file
is not run.  On the successful run of `llama3:8b` it is the last call. -/
theorem backup_fatal_leaves_output_unclosed :
    (backupCmd.Run sampleHost sampleFS "out.tar" "llama3:").outcome
      = .fatal "model name and version must be specified" ∧
    (backupCmd.Run sampleHost sampleFS "out.tar" "llama3:").trace = [.osCreate "out.tar"] ∧
    (backupCmd.Run sampleHost sampleFS "out.tar" "broken:1").outcome
      = .fatal ("error adding model digest to archive blobs/sha256-cccc: "
          ++ "open /m/blobs/sha256-cccc: no such file or directory") ∧
    Event.osCreate "out.tar" ∈ (backupCmd.Run sampleHost sampleFS "out.tar" "broken:1").trace ∧
    Event.outputClose "out.tar"
      ∉ (backupCmd.Run sampleHost sampleFS "out.tar" "broken:1").trace ∧
    (backupCmd.Run sampleHost sampleFS "out.tar" "llama3:8b").trace.getLast?
      = some (.outputClose "out.tar") := by
  decide

/-! ## The claim on the list command -/

/-- C9 (as stated, refuted): the library of `listFS` has the sub-directory
`empty`, and the list command reports `foo` only. -/
theorem list_omits_directory_without_versions :
    os.ReadDir listFS (libraryDir sampleHost)
      = .ok [⟨"foo", true⟩, ⟨"empty", true⟩, ⟨"README", false⟩] ∧
    (listCmd.Run sampleHost listFS).outcome = .returned ∧
    (listCmd.Run sampleHost listFS).report = [("foo", ["1", "2"])] ∧
    (listCmd.Run sampleHost listFS).stdout
      = ["--- /m/manifests/registry.ollama.ai/library ---\n", "foo: 1,2\n"] := by
  refine ⟨rfl, ?_, ?_, ?_⟩ <;> decide

/-- C9 (amended): when the library directory and each of its sub-directories
can be read (the names in the library listing being distinct, as in every
directory), the list command returns and reports, after the banner line, one
line per sub-directory that has at least one non-directory child, each such
sub-directory once, with the names of exactly its non-directory children, and
nothing else. -/
theorem list_reports_directories_with_versions (h : Host) (fs : FS) (dir : List DirEntry)
    (hdir : os.ReadDir fs (libraryDir h) = .ok dir)
    (hnodup : (dir.map (fun e => e.Name)).Nodup)
    (hsub : ∀ e ∈ dir, e.IsDir = true →
      ∃ vers, os.ReadDir fs (filepath.Join [libraryDir h, e.Name]) = .ok vers) :
    (listCmd.Run h fs).outcome = .returned ∧
    ((listCmd.Run h fs).report.map (fun nv => nv.1)).Nodup ∧
    (∀ name versions, (name, versions) ∈ (listCmd.Run h fs).report ↔
      (versions ≠ [] ∧ ∃ e ∈ dir, e.IsDir = true ∧ e.Name = name ∧
        versions = nonDirNames (listing fs (filepath.Join [libraryDir h, name])))) ∧
    (listCmd.Run h fs).stdout
      = ("--- " ++ libraryDir h ++ " ---\n") :: (listCmd.Run h fs).report.map reportLine := by
  have hscan := scanLibrary_eq fs (libraryDir h) dir [] hnodup (by simp) hsub
  have hrun : listCmd.Run h fs
      = ⟨.returned, expectedReport fs (libraryDir h) dir,
          ("--- " ++ libraryDir h ++ " ---\n")
            :: (expectedReport fs (libraryDir h) dir).map reportLine⟩ := by
    unfold libraryDir at hdir hscan ⊢
    simp only [listCmd.Run, hdir, hscan, List.nil_append]
    rfl
  rw [hrun]
  refine ⟨rfl, expectedReport_nodup fs _ dir hnodup, ?_, rfl⟩
  intro name versions
  show (name, versions) ∈ expectedReport fs (libraryDir h) dir ↔ _
  unfold expectedReport
  rw [List.mem_filterMap]
  constructor
  · rintro ⟨e, he, h1⟩
    split at h1
    · rename_i hc
      cases h1
      exact ⟨hc.2, e, he, hc.1, rfl, rfl⟩
    · cases h1
  · rintro ⟨hne, e, he, hd, rfl, hv⟩
    refine ⟨e, he, ?_⟩
    rw [if_pos ⟨hd, by rw [← hv]; exact hne⟩, hv]

/-- One model `foo` with the versions `1` and `2`. -/
theorem list_reports_directories_with_versions_witness :
    (listCmd.Run sampleHost fooFS).outcome = .returned ∧
    (listCmd.Run sampleHost fooFS).stdout
      = ["--- /m/manifests/registry.ollama.ai/library ---\n", "foo: 1,2\n"] :=
  have w := list_reports_directories_with_versions sampleHost fooFS [⟨"foo", true⟩] rfl
    (by decide)
    (by
      intro e he _
      simp only [List.mem_singleton] at he
      subst he
      exact ⟨[⟨"1", false⟩, ⟨"2", false⟩], rfl⟩)
  ⟨w.1, w.2.2.2⟩

end OllamaBackup
